import Mathlib

/-!
Verification development for the SVG-to-wargame-template converter
(`maps/svg_to_template.py`).  The geometric core is embedded shallowly:

* `parse_svg_path_to_coords` is a complete embedding of the path parser,
  including the regex scans, with Python floats modelled exactly by `ℚ`
  and an uncaught exception (`IndexError` on ill-paired coordinates)
  modelled by `none`.
* `simplify_coords`, `calculate_centroid` and `detect_neighbors` call the
  shapely geometry library; the repository's own control flow is embedded
  exactly, and the shapely primitives appear as fields of small "geometry
  engine" records (`SimpGeom`, `CentGeom`, `AdjGeom`).  Theorems that need
  facts about shapely state them as hypotheses that mirror shapely's
  documented behaviour, and concrete engine instances realise them.
-/

namespace StratBoard

/-- Points as rational pairs (SVG user-space coordinates; the Python floats
of the source are modelled exactly by rationals). -/
abbrev Point := ℚ × ℚ

/-- Integer points, the coordinate type produced by the simplification stage
(the source rounds with Python's `round`). -/
abbrev IPoint := ℤ × ℤ

/-- Python's `round`: round half to even (banker's rounding), modelled on
exact rational values.  Computed from the reduced numerator/denominator
with integer operations: `Int.fdiv q.num q.den` is the floor of `q`, and
`2 * (q.num - floor * q.den)` compared with `q.den` decides whether the
fractional part is below, above, or exactly one half. -/
def pyRound (q : ℚ) : ℤ :=
  let f := Int.fdiv q.num (q.den : ℤ)
  let r2 := 2 * (q.num - f * (q.den : ℤ))
  if r2 < (q.den : ℤ) then f
  else if (q.den : ℤ) < r2 then f + 1
  else if f % 2 = 0 then f else f + 1

/-- Embed an integer point into the rational plane. -/
def castPt (p : IPoint) : Point := ((p.1 : ℚ), (p.2 : ℚ))

/-- `[round(x), round(y)]` of the source, on a point. -/
def roundPt (p : Point) : IPoint := (pyRound p.1, pyRound p.2)

theorem pyRound_intCast (n : ℤ) : pyRound (n : ℚ) = n := by
  have hn : (n : ℚ).num = n := Rat.intCast_num n
  have hd : (n : ℚ).den = 1 := Rat.intCast_den n
  simp [pyRound, hn, hd, Int.fdiv_one]

theorem roundPt_castPt (p : IPoint) : roundPt (castPt p) = p := by
  cases p with
  | mk a b => simp [roundPt, castPt, pyRound_intCast]

/-! ### The path parser (`parse_svg_path_to_coords`)

The Python function normalises whitespace, scans for the command pattern
`([MLZmlz])\s*([\d\s,.-]+)?` with `re.findall`, tokenises numbers with
`-?\d+\.?\d*`, and walks the command list keeping a cursor.  Accessing
`numbers[i]` beyond the end raises `IndexError`; the embedding returns
`none` there. -/

/-- Python `\s` on the ASCII range (the source data is ASCII path data). -/
def isSpaceChar (c : Char) : Bool :=
  c = ' ' || c = '\t' || c = '\n' || c = '\x0d' || c = '\x0b' || c = '\x0c'

/-- The command letters of the regex class `[MLZmlz]`. -/
def isCmdChar (c : Char) : Bool :=
  c = 'M' || c = 'L' || c = 'Z' || c = 'm' || c = 'l' || c = 'z'

/-- The argument-run class `[\d\s,.-]`. -/
def isArgChar (c : Char) : Bool :=
  c.isDigit || isSpaceChar c || c = ',' || c = '.' || c = '-'

/-- Fuel-driven body of `squeezeWs`; every step consumes at least one
character while the fuel drops by exactly one, so fuel equal to the list
length always suffices for a complete scan. -/
def squeezeWsF : ℕ → List Char → List Char
  | 0, _ => []
  | _ + 1, [] => []
  | fuel + 1, c :: rest =>
    if isSpaceChar c then ' ' :: squeezeWsF fuel (rest.dropWhile isSpaceChar)
    else c :: squeezeWsF fuel rest

/-- One step of `re.sub(r'\s+', ' ', ...)`: collapse whitespace runs to a
single space. -/
def squeezeWs (cs : List Char) : List Char := squeezeWsF cs.length cs

/-- Python `str.strip()` (ASCII whitespace). -/
def stripWs (cs : List Char) : List Char :=
  ((cs.dropWhile isSpaceChar).reverse.dropWhile isSpaceChar).reverse

/-- `re.sub(r'\s+', ' ', path_data.strip())`. -/
def normalizeWs (cs : List Char) : List Char := squeezeWs (stripWs cs)

/-- Fuel-driven body of `findCommands`; a match consumes at least the
command letter, a non-match consumes one character, while the fuel drops
by one, so fuel equal to the list length gives a complete scan. -/
def findCommandsF : ℕ → List Char → List (Char × List Char)
  | 0, _ => []
  | _ + 1, [] => []
  | fuel + 1, c :: rest =>
    if isCmdChar c then
      (c, (rest.dropWhile isSpaceChar).takeWhile isArgChar) ::
        findCommandsF fuel ((rest.dropWhile isSpaceChar).dropWhile isArgChar)
    else
      findCommandsF fuel rest

/-- `re.findall(r'([MLZmlz])\s*([\d\s,.-]+)?', ...)`: scan left to right,
non-overlapping; at a command letter, `\s*` greedily takes the whitespace
and the optional group greedily takes the following argument-class run. -/
def findCommands (cs : List Char) : List (Char × List Char) :=
  findCommandsF cs.length cs

/-- A matched `-?\d+\.?\d*` token: sign, integer digits, fraction digits. -/
structure NumTok where
  sign : Bool
  intDigits : List Char
  fracDigits : List Char
deriving DecidableEq

/-- Try to match `-?\d+\.?\d*` at the head of the list; on success return
the token and the number of characters consumed (at least one, since the
token has at least one digit). -/
def matchTok (cs : List Char) : Option (NumTok × ℕ) :=
  let s1 : ℕ := if cs.head? = some '-' then 1 else 0
  let ds := (cs.drop s1).takeWhile Char.isDigit
  if ds.isEmpty then none
  else
    let k1 := s1 + ds.length
    let k2 := if (cs.drop k1).head? = some '.' then k1 + 1 else k1
    let fs := (cs.drop k2).takeWhile Char.isDigit
    some (⟨decide (cs.head? = some '-'), ds, fs⟩, k2 + fs.length)

/-- Fuel-driven body of `findToks`; a token match consumes at least one
character and a non-match consumes one, so fuel equal to the list length
gives a complete scan. -/
def findToksF : ℕ → List Char → List NumTok
  | 0, _ => []
  | _ + 1, [] => []
  | fuel + 1, c :: rest =>
    match matchTok (c :: rest) with
    | some tk => tk.1 :: findToksF fuel ((c :: rest).drop tk.2)
    | none => findToksF fuel rest

/-- `re.findall(r'-?\d+\.?\d*', args)`: scan for number tokens, advancing
one character where no token matches. -/
def findToks (cs : List Char) : List NumTok := findToksF cs.length cs

/-- Numeric value of a run of decimal digits. -/
def natValOfDigits (ds : List Char) : ℕ :=
  ds.foldl (fun a c => 10 * a + (c.toNat - 48)) 0

/-- Python `float` of a matched token, modelled exactly on `ℚ`. -/
def tokVal (t : NumTok) : ℚ :=
  let mag : ℚ := (natValOfDigits t.intDigits : ℚ) +
    (natValOfDigits t.fracDigits : ℚ) / (10 : ℚ) ^ t.fracDigits.length
  if t.sign then -mag else mag

/-- `[float(x) for x in re.findall(r'-?\d+\.?\d*', args)]`. -/
def findNumbers (cs : List Char) : List ℚ := (findToks cs).map tokVal

/-- The absolute coordinate-pair loop shared by `M` (after its first pair)
and `L`: consume pairs, failing (Python `IndexError`) on a trailing odd
number. -/
def absPairs : List ℚ → Point → Option (List Point × Point)
  | [], cur => some ([], cur)
  | [_], _ => none
  | x :: y :: rest, _ =>
    match absPairs rest (x, y) with
    | none => none
    | some pc => some ((x, y) :: pc.1, pc.2)

/-- The relative coordinate-pair loop shared by `m` and `l`. -/
def relPairs : List ℚ → Point → Option (List Point × Point)
  | [], cur => some ([], cur)
  | [_], _ => none
  | dx :: dy :: rest, cur =>
    match relPairs rest (cur.1 + dx, cur.2 + dy) with
    | none => none
    | some pc => some ((cur.1 + dx, cur.2 + dy) :: pc.1, pc.2)

/-- Process one matched command: returns the appended points and the new
cursor, or `none` for an uncaught `IndexError`. -/
def runCmd (cur : Point) (cmd : Char) (args : List Char) :
    Option (List Point × Point) :=
  if args.isEmpty then some ([], cur)
  else
    let numbers := findNumbers args
    if cmd = 'M' then (if numbers.isEmpty then none else absPairs numbers cur)
    else if cmd = 'm' then (if numbers.isEmpty then none else relPairs numbers cur)
    else if cmd = 'L' then absPairs numbers cur
    else if cmd = 'l' then relPairs numbers cur
    else some ([], cur)

/-- Walk the command list from cursor `(0, 0)`, accumulating coordinates. -/
def runCmds : Point → List (Char × List Char) → Option (List Point)
  | _, [] => some []
  | cur, ca :: rest =>
    match runCmd cur ca.1 ca.2 with
    | none => none
    | some pc =>
      match runCmds pc.2 rest with
      | none => none
      | some qs => some (pc.1 ++ qs)

/-- The full parser `parse_svg_path_to_coords`; `none` models an uncaught
exception escaping the function. -/
def parse_svg_path_to_coords (s : String) : Option (List Point) :=
  runCmds (0, 0) (findCommands (normalizeWs s.data))

/-! ### The ring simplifier (`simplify_coords`)

The Python function builds `Polygon(coords)` and calls shapely's
topology-preserving `simplify`.  The two shapely primitives are abstracted
as a `SimpGeom` engine operating on closed exterior coordinate sequences
(`Polygon(...).exterior.coords`, which repeats the first point at the
end); `none` models a raised exception, which the source catches by
returning the input rounded. -/

/-- Exact halving of a rational, written so that it kernel-reduces (the
field division of `ℚ` normalises through `Nat.gcd`, which does not
reduce); `half_eq` certifies that it is the source's `tolerance * 0.5`. -/
def half (q : ℚ) : ℚ :=
  if h : q.num % 2 = 0 then
    ⟨q.num / 2, q.den, q.den_nz, by
      exact Nat.Coprime.coprime_dvd_left
        (Int.natAbs_dvd_natAbs.mpr ⟨2, (Int.ediv_mul_cancel
          (Int.dvd_of_emod_eq_zero h)).symm⟩) q.reduced⟩
  else
    ⟨q.num, 2 * q.den, by positivity, by
      refine Nat.Coprime.mul_right ?_ q.reduced
      have hodd : q.num.natAbs % 2 = 1 := by omega
      exact Nat.coprime_two_right.mpr (Nat.odd_iff.mpr hodd)⟩

theorem half_eq (q : ℚ) : half q = q * (1 / 2) := by
  have hden : ((q.den : ℚ)) ≠ 0 := by
    exact_mod_cast q.den_nz
  rw [half]
  split
  · rename_i h
    rw [Rat.mk'_eq_divInt, Rat.divInt_eq_div]
    rw [Int.cast_div_charZero (Int.dvd_of_emod_eq_zero h)]
    conv_rhs => rw [← Rat.num_div_den q]
    push_cast
    rw [div_div, mul_comm (2 : ℚ) _, ← div_div, div_eq_mul_one_div]
  · rw [Rat.mk'_eq_divInt, Rat.divInt_eq_div]
    conv_rhs => rw [← Rat.num_div_den q]
    push_cast
    rw [mul_comm (2 : ℚ) _, ← div_div, div_eq_mul_one_div]

/-- The closed exterior ring shapely stores for `Polygon(coords)`: the
input sequence with the first point appended when it is not already
closed. -/
def closeRing (c : List Point) : List Point :=
  match c with
  | [] => []
  | p :: _ => if c.getLast? = some p then c else c ++ [p]

/-- Abstract engine for the two shapely primitives used by
`simplify_coords`.  `mkPolygonExt c` is `Polygon(c).exterior.coords`;
`simplifyExt e t` is `poly.simplify(t, preserve_topology=True)` applied to
the polygon with closed exterior `e`, returning the closed exterior of the
result; `none` models a raised exception anywhere in the `try` block. -/
structure SimpGeom where
  mkPolygonExt : List Point → Option (List Point)
  simplifyExt : List Point → ℚ → Option (List Point)

/-- `simplify_coords` of the source: fewer than 4 coordinates are returned
rounded unchanged; otherwise simplify at `tolerance`, re-simplify at
`tolerance * 0.5` when the simplified closed exterior has fewer than 6
coordinates, drop the repeated closing coordinate and round; any exception
falls back to the input rounded. -/
def simplify_coords (G : SimpGeom) (coords : List Point) (tolerance : ℚ) :
    List IPoint :=
  if coords.length < 4 then coords.map roundPt
  else
    match G.mkPolygonExt coords with
    | none => coords.map roundPt
    | some ext =>
      match G.simplifyExt ext tolerance with
      | none => coords.map roundPt
      | some s1 =>
        if s1.length < 6 then
          match G.simplifyExt ext (half tolerance) with
          | none => coords.map roundPt
          | some s2 => s2.dropLast.map roundPt
        else s1.dropLast.map roundPt

/-! ### The centroid calculator (`calculate_centroid`) -/

/-- Abstract engine for `Polygon(coords).centroid` followed by the `.x`,
`.y` accesses; `none` models any exception in the `try` block (invalid
constructions, empty centroid of a degenerate polygon, ...). -/
structure CentGeom where
  polygonCentroidXY : List IPoint → Option Point

/-- `calculate_centroid` of the source: round the shapely centroid; on any
exception fall back to the arithmetic mean of the vertices.  The outer
`none` models the `ZeroDivisionError` that the bare `except:` fallback
itself raises on an empty input. -/
def calculate_centroid (G : CentGeom) (coords : List IPoint) :
    Option (List ℤ) :=
  match G.polygonCentroidXY coords with
  | some c => some [pyRound c.1, pyRound c.2]
  | none =>
    if coords.length = 0 then none
    else
      some [pyRound (((coords.map (fun c => (c.1 : ℚ))).sum) / (coords.length : ℚ)),
            pyRound (((coords.map (fun c => (c.2 : ℚ))).sum) / (coords.length : ℚ))]

/-! ### Identifier assignment (`assign_province_ids`)

The source sets `province['id'] = chr(65 + idx)`.  A Python character is
identified with its code point, so the assignment is modelled as the code
`65 + idx` attached to each province. -/

/-- `assign_province_ids`: the province at 0-based position `idx` receives
the identifier with character code `65 + idx`. -/
def assign_province_ids {β : Type} (ps : List β) : List (β × ℕ) :=
  ps.enum.map (fun ip => (ip.2, 65 + ip.1))

/-- Code of an uppercase ASCII letter (`A`–`Z`). -/
def isUpperCode (c : ℕ) : Prop := 65 ≤ c ∧ c ≤ 90

/-- Code of an ASCII alphabetic letter (`A`–`Z` or `a`–`z`). -/
def isAsciiAlphaCode (c : ℕ) : Prop := (65 ≤ c ∧ c ≤ 90) ∨ (97 ≤ c ∧ c ≤ 122)

instance (c : ℕ) : Decidable (isUpperCode c) := by
  unfold isUpperCode
  infer_instance

instance (c : ℕ) : Decidable (isAsciiAlphaCode c) := by
  unfold isAsciiAlphaCode
  infer_instance

/-! ### The adjacency detector (`detect_neighbors`)

The Python function keeps two insertion-ordered dicts: `neighbors` mapping
every province id to a list, and `polygons` mapping the ids whose polygon
construction succeeded to a shapely polygon.  It then walks all unordered
pairs of constructed polygons (`for i, id1 ...: for id2 in ids[i+1:]`) and
appends both directions when the pair registers.  Dicts are modelled as
association lists with unique keys (`dictInsert` overwrites in place, as a
Python dict does). -/

/-- A province as `detect_neighbors` sees it: its assigned id and its
simplified integer ring. -/
structure Prov where
  id : String
  coordinates : List IPoint
deriving DecidableEq

/-- Abstract engine for the shapely operations of `detect_neighbors`, over
an abstract polygon type `α`.  `mkPoly` is the whole per-province `try`
block (`Polygon`, `is_valid`, `buffer(0)`), `none` when it raises;
`pairTouches`/`pairIntersects`/`interLength` are `poly1.touches(poly2)`,
`poly1.intersects(poly2)` and `poly1.intersection(poly2).length`, with
`none` modelling a raised exception. -/
structure AdjGeom (α : Type) where
  mkPoly : List IPoint → Option α
  pairTouches : α → α → Option Bool
  pairIntersects : α → α → Option Bool
  interLength : α → α → Option ℚ

/-- Python dict assignment `m[k] = v`: overwrite in place, append at the
end when the key is new. -/
def dictInsert {β : Type} (k : String) (v : β) :
    List (String × β) → List (String × β)
  | [] => [(k, v)]
  | e :: rest => if e.1 = k then (k, v) :: rest else e :: dictInsert k v rest

/-- Python `m[k].append(v)` on a dict of lists (no-op when the key is
absent, which never happens in `detect_neighbors`). -/
def dictAppend (k : String) (v : String) :
    List (String × List String) → List (String × List String)
  | [] => []
  | e :: rest =>
    if e.1 = k then (e.1, e.2 ++ [v]) :: rest else e :: dictAppend k v rest

/-- First-match lookup in an association list. -/
def dlookup {β : Type} (k : String) : List (String × β) → Option β
  | [] => none
  | e :: rest => if e.1 = k then some e.2 else dlookup k rest

/-- The neighbor list of `k` in the returned mapping (`[]` when absent). -/
def nbGet (m : List (String × List String)) (k : String) : List String :=
  (dlookup k m).getD []

/-- The keys of an association list, in order. -/
def dkeys {β : Type} (m : List (String × β)) : List String := m.map (fun e => e.1)

/-- `neighbors = {p['id']: [] for p in provinces}`. -/
def initNeighbors (ps : List Prov) : List (String × List String) :=
  ps.foldl (fun m p => dictInsert p.id [] m) []

/-- One iteration of the polygon-construction loop: insert the province
when `mkPoly` succeeds, skip it (`continue`) when it raises. -/
def polyStep {α : Type} (G : AdjGeom α) (m : List (String × α)) (p : Prov) :
    List (String × α) :=
  match G.mkPoly p.coordinates with
  | some a => dictInsert p.id a m
  | none => m

/-- The `polygons` dict: insert each province whose `mkPoly` succeeds. -/
def buildPolygons {α : Type} (G : AdjGeom α) (ps : List Prov) :
    List (String × α) :=
  ps.foldl (polyStep G) []

/-- All ordered pairs `(l[i], l[j])` with `i < j`, in the order the
two nested Python loops produce them. -/
def pairsOf {β : Type} : List β → List (β × β)
  | [] => []
  | x :: rest => rest.map (fun y => (x, y)) ++ pairsOf rest

/-- The body of the pairwise `try` block: `touches or intersects` with
Python short-circuiting, then `intersection.length > 1`; any exception
(`none`) means the pair is skipped. -/
def pairRegisters {α : Type} (G : AdjGeom α) (p q : α) : Bool :=
  match G.pairTouches p q with
  | none => false
  | some t =>
    if t then
      match G.interLength p q with
      | none => false
      | some l => decide (1 < l)
    else
      match G.pairIntersects p q with
      | none => false
      | some i =>
        if i then
          match G.interLength p q with
          | none => false
          | some l => decide (1 < l)
        else false

/-- `neighbors[id1].append(id2); neighbors[id2].append(id1)`. -/
def addPair (i j : String) (m : List (String × List String)) :
    List (String × List String) :=
  dictAppend j i (dictAppend i j m)

/-- One iteration of the pairwise loop. -/
def adjStep {α : Type} (G : AdjGeom α) (m : List (String × List String))
    (pr : (String × α) × (String × α)) : List (String × List String) :=
  if pairRegisters G pr.1.2 pr.2.2 then addPair pr.1.1 pr.2.1 m else m

/-- `detect_neighbors` of the source. -/
def detect_neighbors {α : Type} (G : AdjGeom α) (ps : List Prov) :
    List (String × List String) :=
  (pairsOf (buildPolygons G ps)).foldl (adjStep G) (initNeighbors ps)

/-! ### Exact geometric predicates

Used to state the topology half of the simplification claims.  All tests
are carried out on integer cross-multiplied numerators (the rational field
operations of `ℚ` normalise through `Nat.gcd` and are better avoided in
computations), with the reduced denominators of `ℚ` known positive. -/

/-- Numerator of `x - y` over the positive denominator
`x.den * y.den`. -/
def rsub (x y : ℚ) : ℤ × ℤ :=
  (x.num * (y.den : ℤ) - y.num * (x.den : ℤ), (x.den : ℤ) * (y.den : ℤ))

/-- `x ≤ y` on `ℚ` by cross multiplication (denominators positive). -/
def qle (x y : ℚ) : Prop := x.num * (y.den : ℤ) ≤ y.num * (x.den : ℤ)

theorem qle_iff (x y : ℚ) : qle x y ↔ x ≤ y := by
  unfold qle
  exact Iff.symm Rat.le_def

instance (x y : ℚ) : Decidable (qle x y) := by
  unfold qle
  infer_instance

/-- Integer numerator (over a positive denominator) of the cross product
`(a - o) × (b - o)`: its sign is the orientation of the triple
`o, a, b`. -/
def crossNum (o a b : Point) : ℤ :=
  let u1 := rsub a.1 o.1
  let u2 := rsub b.2 o.2
  let v1 := rsub a.2 o.2
  let v2 := rsub b.1 o.1
  u1.1 * u2.1 * (v1.2 * v2.2) - v1.1 * v2.1 * (u1.2 * u2.2)

/-- Integer numerator (over a positive denominator) of the dot product
`(a - o) · (b - o)`: its sign tells whether `a` and `b` lie on the same
side of `o` along a common line. -/
def dotNum (o a b : Point) : ℤ :=
  let u1 := rsub a.1 o.1
  let u2 := rsub b.1 o.1
  let v1 := rsub a.2 o.2
  let v2 := rsub b.2 o.2
  u1.1 * u2.1 * (v1.2 * v2.2) + v1.1 * v2.1 * (u1.2 * u2.2)

/-- `p` lies on the closed segment from `a` to `b`: collinear and inside
the bounding box. -/
def onSeg (a b p : Point) : Prop :=
  crossNum a b p = 0 ∧
  (qle a.1 p.1 ∨ qle b.1 p.1) ∧ (qle p.1 a.1 ∨ qle p.1 b.1) ∧
  (qle a.2 p.2 ∨ qle b.2 p.2) ∧ (qle p.2 a.2 ∨ qle p.2 b.2)

/-- The closed segments `a b` and `c d` share at least one point: either a
proper crossing, or an endpoint of one lies on the other. -/
def segsIntersect (a b c d : Point) : Prop :=
  (crossNum c d a * crossNum c d b < 0 ∧ crossNum a b c * crossNum a b d < 0) ∨
  onSeg c d a ∨ onSeg c d b ∨ onSeg a b c ∨ onSeg a b d

instance (a b p : Point) : Decidable (onSeg a b p) := by
  unfold onSeg
  infer_instance

instance (a b c d : Point) : Decidable (segsIntersect a b c d) := by
  unfold segsIntersect
  infer_instance

/-- Vertex `i` of the implicitly closed ring `r` (indices wrap). -/
def vtx (r : List Point) (i : ℕ) : Point := r.getD (i % r.length) (0, 0)

/-- Compatibility of edges `i` and `j` (`i < j`) of the implicitly closed
ring `r`: adjacent edges may meet only at their shared vertex (no
doubling back along a common line), non-adjacent edges must be
disjoint. -/
def edgeOk (r : List Point) (i j : ℕ) : Prop :=
  if j = i + 1 then
    ¬(crossNum (vtx r j) (vtx r i) (vtx r (j + 1)) = 0 ∧
      0 < dotNum (vtx r j) (vtx r i) (vtx r (j + 1)))
  else if i = 0 ∧ j = r.length - 1 then
    ¬(crossNum (vtx r 0) (vtx r 1) (vtx r j) = 0 ∧
      0 < dotNum (vtx r 0) (vtx r 1) (vtx r j))
  else
    ¬segsIntersect (vtx r i) (vtx r (i + 1)) (vtx r j) (vtx r (j + 1))

instance (r : List Point) (i j : ℕ) : Decidable (edgeOk r i j) := by
  unfold edgeOk
  infer_instance

/-- `r` (implicitly closed, the start point not repeated at the end) is a
simple polygon boundary: at least 3 vertices, no degenerate edge, and all
edge pairs compatible. -/
def isSimpleRing (r : List Point) : Prop :=
  3 ≤ r.length ∧
  (∀ i, i < r.length → vtx r i ≠ vtx r (i + 1)) ∧
  (∀ i, i < r.length → ∀ j, j < r.length → i < j → edgeOk r i j)

instance (r : List Point) : Decidable (isSimpleRing r) := by
  unfold isSimpleRing
  infer_instance

theorem isSimpleRing_square :
    isSimpleRing [((0 : ℚ), (0 : ℚ)), (10, 0), (10, 10), (0, 10)] := by decide

theorem not_isSimpleRing_degenerate :
    ¬isSimpleRing [((0 : ℚ), (0 : ℚ)), (1, 0), (0, 0)] := by decide

/-! ### Collinear-overlap test for pairs of integer rings

Formalises, for the adjacency claim, when the intersection of two ring
boundaries is a finite point set (total length zero): whenever no edge of
one ring overlaps an edge of the other along a common line, every
boundary-boundary intersection is a single point, and a finite set of
points has total length `0`. -/

/-- The edges of an implicitly closed integer ring. -/
def ringEdges (r : List IPoint) : List (IPoint × IPoint) :=
  r.zip (r.rotate 1)

/-- The closed segments `a b` and `c d` (integer endpoints) are collinear
and overlap in a segment of positive length. -/
def segsCollinearOverlap (a b c d : IPoint) : Prop :=
  (b.1 - a.1) * (c.2 - a.2) - (b.2 - a.2) * (c.1 - a.1) = 0 ∧
  (b.1 - a.1) * (d.2 - a.2) - (b.2 - a.2) * (d.1 - a.1) = 0 ∧
  (let l := (b.1 - a.1) * (b.1 - a.1) + (b.2 - a.2) * (b.2 - a.2)
   let tc := (c.1 - a.1) * (b.1 - a.1) + (c.2 - a.2) * (b.2 - a.2)
   let td := (d.1 - a.1) * (b.1 - a.1) + (d.2 - a.2) * (b.2 - a.2)
   max 0 (min tc td) < min l (max tc td))

/-- Modelled from the spec: the spec's adjacency threshold measures "the
geometric intersection of the two boundaries ... its total length".  When
no edge of `r1` overlaps an edge of `r2` collinearly, that intersection is
a finite set of points, whose total length is `0`. -/
def boundariesShareNoSegment (r1 r2 : List IPoint) : Prop :=
  ∀ e1 ∈ ringEdges r1, ∀ e2 ∈ ringEdges r2,
    ¬segsCollinearOverlap e1.1 e1.2 e2.1 e2.2

instance (r1 r2 : List IPoint) : Decidable (boundariesShareNoSegment r1 r2) := by
  unfold boundariesShareNoSegment segsCollinearOverlap
  infer_instance

/-! ## Claims -/

/-- Well-formedness of one matched command for the parser: every move
command carries at least one number and every move/line command carries an
even number of numbers (otherwise the source indexes `numbers` past its
end and raises `IndexError`). -/
def cmdOk (ca : Char × List Char) : Prop :=
  ¬ca.2.isEmpty →
  (((ca.1 = 'M' ∨ ca.1 = 'm') → ¬(findNumbers ca.2).isEmpty) ∧
   ((ca.1 = 'M' ∨ ca.1 = 'm' ∨ ca.1 = 'L' ∨ ca.1 = 'l') →
     2 ∣ (findNumbers ca.2).length))

instance (ca : Char × List Char) : Decidable (cmdOk ca) := by
  unfold cmdOk
  infer_instance

theorem absPairs_isSome :
    ∀ (ns : List ℚ) (cur : Point), 2 ∣ ns.length → (absPairs ns cur).isSome
  | [], cur, _ => by simp [absPairs]
  | [x], _, h => by simp at h
  | x :: y :: rest, cur, h => by
    have h2 : 2 ∣ rest.length := by
      simp only [List.length_cons] at h
      omega
    have ih := absPairs_isSome rest (x, y) h2
    rw [absPairs]
    cases hr : absPairs rest (x, y) with
    | none => rw [hr] at ih; simp at ih
    | some pc => simp

theorem relPairs_isSome :
    ∀ (ns : List ℚ) (cur : Point), 2 ∣ ns.length → (relPairs ns cur).isSome
  | [], cur, _ => by simp [relPairs]
  | [x], _, h => by simp at h
  | x :: y :: rest, cur, h => by
    have h2 : 2 ∣ rest.length := by
      simp only [List.length_cons] at h
      omega
    have ih := relPairs_isSome rest (cur.1 + x, cur.2 + y) h2
    rw [relPairs]
    cases hr : relPairs rest (cur.1 + x, cur.2 + y) with
    | none => rw [hr] at ih; simp at ih
    | some pc => simp

theorem runCmd_isSome (cur : Point) (ca : Char × List Char) (h : cmdOk ca) :
    (runCmd cur ca.1 ca.2).isSome := by
  unfold runCmd
  by_cases he : ca.2.isEmpty
  · simp [he]
  · obtain ⟨hmv, hev⟩ := h he
    simp only [he, if_false, Bool.false_eq_true]
    by_cases hM : ca.1 = 'M'
    · have hne := hmv (Or.inl hM)
      have hdvd := hev (Or.inl hM)
      simp only [hM, if_true, if_pos rfl]
      simp only [hne, if_false]
      simpa using absPairs_isSome _ cur hdvd
    · by_cases hm : ca.1 = 'm'
      · have hne := hmv (Or.inr hm)
        have hdvd := hev (Or.inr (Or.inl hm))
        simp only [hM, hm, if_false, if_true, if_pos rfl]
        simp only [hne, if_false]
        simpa using relPairs_isSome _ cur hdvd
      · by_cases hL : ca.1 = 'L'
        · have hdvd := hev (Or.inr (Or.inr (Or.inl hL)))
          simp only [hM, hm, hL, if_false, if_true, if_pos rfl]
          exact absPairs_isSome _ cur hdvd
        · by_cases hl : ca.1 = 'l'
          · have hdvd := hev (Or.inr (Or.inr (Or.inr hl)))
            simp only [hM, hm, hL, hl, if_false, if_true, if_pos rfl]
            exact relPairs_isSome _ cur hdvd
          · simp [hM, hm, hL, hl]

theorem runCmds_isSome :
    ∀ (l : List (Char × List Char)) (cur : Point),
      (∀ ca ∈ l, cmdOk ca) → (runCmds cur l).isSome
  | [], cur, _ => by simp [runCmds]
  | ca :: rest, cur, h => by
    have h1 := runCmd_isSome cur ca (h ca (by simp))
    rw [runCmds]
    cases hc : runCmd cur ca.1 ca.2 with
    | none => rw [hc] at h1; simp at h1
    | some pc =>
      have h2 := runCmds_isSome rest pc.2 (fun x hx => h x (by simp [hx]))
      cases hr : runCmds pc.2 rest with
      | none => rw [hr] at h2; simp at h2
      | some qs => simp [hr]

/-- Claim C2 counterexample: on the path string `"M 5"` the parser raises
`IndexError` — the `M` command carries a single number and the source
reads `numbers[1]` — so the parser does not return an ordered point list
for every input path string. -/
theorem parse_svg_path_to_coords_raises : parse_svg_path_to_coords "M 5" = none := by
  decide

/-- Claim C2 (amended): the parser returns an ordered point list without
raising for every path string whose move commands carry at least one
number and whose move/line commands carry evenly many numbers; an input
yielding fewer than 3 points is not a parser error but is skipped by the
caller.  (On an ill-paired command the source raises `IndexError`, caught
only by the per-province handler upstream.) -/
theorem parse_svg_path_to_coords_total (s : String)
    (h : ∀ ca ∈ findCommands (normalizeWs s.data), cmdOk ca) :
    (parse_svg_path_to_coords s).isSome :=
  runCmds_isSome _ _ h

theorem parse_svg_path_to_coords_total_witness :
    (∀ ca ∈ findCommands (normalizeWs ("M 0 0 L 10 0 L 10 10 Z").data), cmdOk ca) ∧
    (parse_svg_path_to_coords "M 0 0 L 10 0 L 10 10 Z").isSome :=
  ⟨by decide, parse_svg_path_to_coords_total "M 0 0 L 10 0 L 10 10 Z" (by decide)⟩

/-- Claim C9: the two specified example paths parse to exactly the
specified rings: the absolute square path (with its `Z` contributing no
point) and the relative three-point path. -/
theorem parse_svg_path_to_coords_examples :
    parse_svg_path_to_coords "M 0 0 L 10 0 L 10 10 L 0 10 Z" =
      some [(0, 0), (10, 0), (10, 10), (0, 10)] ∧
    parse_svg_path_to_coords "m 5 5 l 5 0 l 0 5" =
      some [(5, 5), (10, 5), (10, 10)] := by
  constructor
  · have ha : natValOfDigits ['0'] = 0 := by decide
    have hb : natValOfDigits ([] : List Char) = 0 := by decide
    have hc : natValOfDigits ['1', '0'] = 10 := by decide
    have h0 : tokVal ⟨false, ['0'], []⟩ = 0 := by norm_num [tokVal, ha, hb]
    have h10 : tokVal ⟨false, ['1', '0'], []⟩ = 10 := by norm_num [tokVal, hb, hc]
    have hcmds : findCommands (normalizeWs ("M 0 0 L 10 0 L 10 10 L 0 10 Z").data) =
        [('M', ['0', ' ', '0', ' ']), ('L', ['1', '0', ' ', '0', ' ']),
         ('L', ['1', '0', ' ', '1', '0', ' ']), ('L', ['0', ' ', '1', '0', ' ']),
         ('Z', [])] := by decide
    have ht1 : findToks ['0', ' ', '0', ' '] = [⟨false, ['0'], []⟩, ⟨false, ['0'], []⟩] := by
      decide
    have ht2 : findToks ['1', '0', ' ', '0', ' '] =
        [⟨false, ['1', '0'], []⟩, ⟨false, ['0'], []⟩] := by decide
    have ht3 : findToks ['1', '0', ' ', '1', '0', ' '] =
        [⟨false, ['1', '0'], []⟩, ⟨false, ['1', '0'], []⟩] := by decide
    have ht4 : findToks ['0', ' ', '1', '0', ' '] =
        [⟨false, ['0'], []⟩, ⟨false, ['1', '0'], []⟩] := by decide
    unfold parse_svg_path_to_coords
    rw [hcmds]
    simp [runCmds, runCmd, findNumbers, ht1, ht2, ht3, ht4, h0, h10, absPairs]
  · have ha : natValOfDigits ['0'] = 0 := by decide
    have hb : natValOfDigits ([] : List Char) = 0 := by decide
    have hc : natValOfDigits ['5'] = 5 := by decide
    have h0 : tokVal ⟨false, ['0'], []⟩ = 0 := by norm_num [tokVal, ha, hb]
    have h5 : tokVal ⟨false, ['5'], []⟩ = 5 := by norm_num [tokVal, hb, hc]
    have hcmds : findCommands (normalizeWs ("m 5 5 l 5 0 l 0 5").data) =
        [('m', ['5', ' ', '5', ' ']), ('l', ['5', ' ', '0', ' ']),
         ('l', ['0', ' ', '5'])] := by decide
    have ht1 : findToks ['5', ' ', '5', ' '] = [⟨false, ['5'], []⟩, ⟨false, ['5'], []⟩] := by
      decide
    have ht2 : findToks ['5', ' ', '0', ' '] = [⟨false, ['5'], []⟩, ⟨false, ['0'], []⟩] := by
      decide
    have ht3 : findToks ['0', ' ', '5'] = [⟨false, ['0'], []⟩, ⟨false, ['5'], []⟩] := by
      decide
    unfold parse_svg_path_to_coords
    rw [hcmds]
    simp [runCmds, runCmd, findNumbers, ht1, ht2, ht3, h0, h5, relPairs]
    norm_num

/-- Claim C7: for every non-empty coordinate list the centroid calculation
returns an integer-rounded point and never raises; whenever the shapely
area-weighted centroid computation fails (any exception, caught by the
bare `except:`), the result is the rounded unweighted arithmetic mean of
the vertices. -/
theorem calculate_centroid_total (G : CentGeom) (coords : List IPoint)
    (h : coords ≠ []) :
    (calculate_centroid G coords).isSome ∧
    (G.polygonCentroidXY coords = none →
      calculate_centroid G coords =
        some [pyRound (((coords.map (fun c => (c.1 : ℚ))).sum) / (coords.length : ℚ)),
              pyRound (((coords.map (fun c => (c.2 : ℚ))).sum) / (coords.length : ℚ))]) := by
  have hlen : coords.length ≠ 0 := by simpa using h
  cases hg : G.polygonCentroidXY coords with
  | some c => simp [calculate_centroid, hg]
  | none => simp [calculate_centroid, hg, hlen]

/-- A centroid engine whose shapely computation always fails. -/
def centNone : CentGeom := ⟨fun _ => none⟩

theorem calculate_centroid_total_witness :
    ([((0 : ℤ), (0 : ℤ)), (2, 0), (0, 2)] : List IPoint) ≠ [] ∧
    (calculate_centroid centNone [(0, 0), (2, 0), (0, 2)]).isSome :=
  ⟨by decide,
   (calculate_centroid_total centNone [(0, 0), (2, 0), (0, 2)] (by decide)).1⟩

/-- Claim C10 counterexample: with 33 provinces the last one (0-based
index 32) is assigned the character code 65 + 32 = 97, the lowercase
letter `a` — an ASCII *alphabetic* character, contradicting the claim
that provinces beyond the 26th receive non-alphabetic ASCII
characters. -/
theorem assign_province_ids_counterexample :
    (assign_province_ids (List.range 33)).getD 32 (0, 0) = (32, 97) ∧
    isAsciiAlphaCode 97 := by
  constructor
  · decide
  · decide

/-- Claim C10 (amended): the province at 0-based position `i` receives the
character code `65 + i`; the codes are pairwise distinct for any province
count; the code is an uppercase letter exactly for the first 26
provinces.  From the 27th province onward the character is outside
`A`–`Z` but need not be a non-alphabetic ASCII character (positions
32–57 give lowercase letters, positions ≥ 63 non-ASCII code points). -/
theorem assign_province_ids_spec {β : Type} (ps : List β) :
    ((assign_province_ids ps).map (fun e => e.2)) =
      (List.range ps.length).map (fun i => 65 + i) ∧
    ((assign_province_ids ps).map (fun e => e.2)).Nodup ∧
    (∀ i, i < ps.length → (isUpperCode (65 + i) ↔ i < 26)) := by
  have hmap : ((assign_province_ids ps).map (fun e => e.2)) =
      (List.range ps.length).map (fun i => 65 + i) := by
    unfold assign_province_ids
    rw [List.map_map]
    have : ((fun e : β × ℕ => e.2) ∘ fun ip : ℕ × β => (ip.2, 65 + ip.1)) =
        (fun i => 65 + i) ∘ (fun ip : ℕ × β => ip.1) := rfl
    rw [this, ← List.map_map, List.enum_map_fst]
  refine ⟨hmap, ?_, ?_⟩
  · rw [hmap]
    exact (List.nodup_range _).map (fun a b h => by omega)
  · intro i _
    unfold isUpperCode
    omega

theorem assign_province_ids_spec_witness :
    ((assign_province_ids [(), ()]).map (fun e => e.2)) =
      (List.range 2).map (fun i => 65 + i) ∧
    (isUpperCode 66 ↔ (1 : ℕ) < 26) :=
  ⟨(assign_province_ids_spec [(), ()]).1,
   (assign_province_ids_spec [(), ()]).2.2 1 (by decide)⟩

/-! ### Claims about `simplify_coords` -/

/-- Claim C5: for every ring of length at least 3, simplification with
tolerance 0 returns a ring with at least 3 points and no more points
than the input.  The engine hypotheses mirror shapely's documented
behaviour: the polygon exterior is the input closed (adding at most one
coordinate), and topology-preserving simplification returns the closed
exterior of a valid polygon — at least 3 distinct vertices, hence at
least 4 closed coordinates — and only removes vertices. -/
theorem simplify_coords_count (G : SimpGeom) (coords : List Point)
    (hmk : ∀ c e, G.mkPolygonExt c = some e → e.length ≤ c.length + 1)
    (hsim : ∀ e t s, G.simplifyExt e t = some s →
      4 ≤ s.length ∧ s.length ≤ e.length)
    (h3 : 3 ≤ coords.length) :
    3 ≤ (simplify_coords G coords 0).length ∧
    (simplify_coords G coords 0).length ≤ coords.length := by
  by_cases h4 : coords.length < 4
  · have hout : simplify_coords G coords 0 = coords.map roundPt := by
      simp [simplify_coords, h4]
    rw [hout]
    simp only [List.length_map]
    omega
  · cases hm : G.mkPolygonExt coords with
    | none =>
      have hout : simplify_coords G coords 0 = coords.map roundPt := by
        simp [simplify_coords, h4, hm]
      rw [hout]
      simp only [List.length_map]
      omega
    | some ext =>
      have hext := hmk _ _ hm
      cases hs1 : G.simplifyExt ext 0 with
      | none =>
        have hout : simplify_coords G coords 0 = coords.map roundPt := by
          simp [simplify_coords, h4, hm, hs1]
        rw [hout]
        simp only [List.length_map]
        omega
      | some s1 =>
        have h1 := hsim _ _ _ hs1
        by_cases h6 : s1.length < 6
        · cases hs2 : G.simplifyExt ext (half 0) with
          | none =>
            have hout : simplify_coords G coords 0 = coords.map roundPt := by
              simp [simplify_coords, h4, hm, hs1, h6, hs2]
            rw [hout]
            simp only [List.length_map]
            omega
          | some s2 =>
            have h2 := hsim _ _ _ hs2
            have hout : simplify_coords G coords 0 = s2.dropLast.map roundPt := by
              simp [simplify_coords, h4, hm, hs1, h6, hs2]
            rw [hout]
            simp only [List.length_map, List.length_dropLast]
            omega
        · have hout : simplify_coords G coords 0 = s1.dropLast.map roundPt := by
            simp [simplify_coords, h4, hm, hs1, h6]
          rw [hout]
          simp only [List.length_map, List.length_dropLast]
          omega

/-- Identity-like engine: the exterior closes the ring; simplification
returns the exterior unchanged when it has at least 4 coordinates and
fails otherwise. -/
def simpIdGeom : SimpGeom :=
  ⟨fun c => some (closeRing c), fun e _ => if 4 ≤ e.length then some e else none⟩

theorem closeRing_length_le (c : List Point) :
    (closeRing c).length ≤ c.length + 1 := by
  rcases c with _ | ⟨p, t⟩
  · simp [closeRing]
  · simp only [closeRing]
    by_cases h : (p :: t).getLast? = some p
    · rw [if_pos h]
      simp
    · rw [if_neg h]
      simp

theorem simpIdGeom_mk (c e : List Point) :
    simpIdGeom.mkPolygonExt c = some e → e.length ≤ c.length + 1 := by
  intro h
  have he : e = closeRing c := (Option.some.inj h).symm
  rw [he]
  exact closeRing_length_le c

theorem simpIdGeom_sim (e : List Point) (t : ℚ) (s : List Point) :
    simpIdGeom.simplifyExt e t = some s → 4 ≤ s.length ∧ s.length ≤ e.length := by
  intro h
  unfold simpIdGeom at h
  simp only at h
  split at h
  · have hs : s = e := (Option.some.inj h).symm
    rw [hs]
    constructor
    · assumption
    · exact le_refl _
  · cases h

theorem simplify_coords_count_witness :
    3 ≤ (simplify_coords simpIdGeom
        [((0 : ℚ), (0 : ℚ)), (10, 0), (10, 10), (0, 10)] 0).length ∧
    (simplify_coords simpIdGeom
        [((0 : ℚ), (0 : ℚ)), (10, 0), (10, 10), (0, 10)] 0).length ≤
      ([((0 : ℚ), (0 : ℚ)), (10, 0), (10, 10), (0, 10)] : List Point).length :=
  simplify_coords_count simpIdGeom _ simpIdGeom_mk simpIdGeom_sim (by decide)

/-- Claim C3 (amended): on the successful path, the retry happens exactly
when the first simplified closed exterior has fewer than 6 coordinates —
that is, when the simplified ring has fewer than 5 distinct vertices, not
fewer than 6 as the claim states; the single retry runs at half the
requested tolerance (`half_eq` certifies `half tol = tol * 0.5`) and its
result is accepted regardless of its size. -/
theorem simplify_coords_retry (G : SimpGeom) (coords : List Point) (tol : ℚ)
    (ext s1 : List Point)
    (h4 : ¬coords.length < 4)
    (hmk : G.mkPolygonExt coords = some ext)
    (hs1 : G.simplifyExt ext tol = some s1) :
    (s1.length < 6 → ∀ s2, G.simplifyExt ext (half tol) = some s2 →
      simplify_coords G coords tol = s2.dropLast.map roundPt) ∧
    (¬s1.length < 6 → simplify_coords G coords tol = s1.dropLast.map roundPt) := by
  constructor
  · intro h6 s2 hs2
    simp [simplify_coords, hmk, hs1, hs2, h4, h6]
  · intro h6
    simp [simplify_coords, hmk, hs1, h4, h6]

/-- A raw hexagonal ring, its closed exterior, and a 5-vertex (6 closed
coordinates) pentagonal closed exterior used by the retry claims. -/
def hexRawRing : List Point :=
  [(0, 0), (40, 0), (60, 30), (40, 60), (0, 60), (-20, 30)]

def hexClosedRing : List Point := hexRawRing ++ [(0, 0)]

def pentClosedRing : List Point :=
  [(0, 0), (40, 0), (60, 30), (40, 60), (-20, 30), (0, 0)]

def sqClosedRing : List Point := [(0, 0), (40, 0), (40, 40), (0, 40), (0, 0)]

/-- Engine for the C3 counterexample: simplification at tolerance 5 yields
the pentagon (closed exterior of 6 coordinates, i.e. 5 distinct
vertices); any other tolerance — in particular the halved one — yields
the full hexagon. -/
def pentGeom : SimpGeom :=
  ⟨fun c => some (closeRing c),
   fun _ t => if t = 5 then some pentClosedRing else some hexClosedRing⟩

/-- Claim C3 counterexample: the first simplification returns a ring of 5
vertices — fewer than 6 — yet no retry happens and the half-tolerance
result (the hexagon, which the engine would supply) is not accepted: the
source's `< 6` test counts the closed coordinate sequence (vertices plus
the repeated closing point), so it retries only below 5 vertices. -/
theorem simplify_coords_retry_counterexample :
    simplify_coords pentGeom hexRawRing 5 =
      [(0, 0), (40, 0), (60, 30), (40, 60), (-20, 30)] ∧
    (pentClosedRing.dropLast).length = 5 ∧
    simplify_coords pentGeom hexRawRing 5 ≠
      hexClosedRing.dropLast.map roundPt := by
  refine ⟨by decide, by decide, by decide⟩

/-- Engine for the C3 witness: tolerance 5 collapses to a square (closed
exterior of 5 coordinates, which does trigger the retry), other
tolerances give back the hexagon. -/
def sqGeom : SimpGeom :=
  ⟨fun c => some (closeRing c),
   fun _ t => if t = 5 then some sqClosedRing else some hexClosedRing⟩

theorem simplify_coords_retry_witness :
    simplify_coords sqGeom hexRawRing 5 = hexClosedRing.dropLast.map roundPt :=
  (simplify_coords_retry sqGeom hexRawRing 5 (closeRing hexRawRing) sqClosedRing
    (by decide) rfl (by decide)).1 (by decide) hexClosedRing (by decide)

/-- `head?` of the rounded open ring in terms of the closed exterior. -/
theorem head?_map_dropLast (f : Point → IPoint) (l : List Point)
    (h : 2 ≤ l.length) : (l.dropLast.map f).head? = l.head?.map f := by
  cases l with
  | nil => simp at h
  | cons a t =>
    cases t with
    | nil => simp at h
    | cons b u => simp [List.dropLast]

/-- `getLast?` of the rounded open ring is the second-to-last coordinate
of the closed exterior. -/
theorem getLast?_map_dropLast (f : Point → IPoint) :
    ∀ (l : List Point), 2 ≤ l.length →
      (l.dropLast.map f).getLast? = (l.get? (l.length - 2)).map f
  | [], h => by simp at h
  | [a], h => by simp at h
  | [a, b], _ => by simp [List.dropLast]
  | a :: b :: c :: u, _ => by
    have ih := getLast?_map_dropLast f (b :: c :: u) (by simp)
    simp only [List.dropLast, List.map_cons, List.getLast?_cons_cons]
    simp only [List.dropLast, List.map_cons, List.getLast?_cons_cons] at ih
    rw [ih]
    simp only [List.length_cons]
    rfl

/-- An accepted closed exterior, once its closing coordinate is dropped
and the points rounded, has distinct first and last points whenever its
first and second-to-last coordinates round to distinct integer points. -/
theorem dropLast_map_ne_ends (s : List Point) (x y : Point)
    (hx : s.head? = some x) (hy : s.get? (s.length - 2) = some y)
    (hne : roundPt x ≠ roundPt y) :
    (s.dropLast.map roundPt).head? ≠ (s.dropLast.map roundPt).getLast? := by
  by_cases h2 : 2 ≤ s.length
  · rw [head?_map_dropLast _ _ h2, getLast?_map_dropLast _ _ h2, hx, hy]
    simp [hne]
  · exfalso
    apply hne
    have h0 : s.length - 2 = 0 := by omega
    rw [h0] at hy
    cases s with
    | nil => simp at hx
    | cons a t =>
      simp only [List.head?_cons, Option.some.injEq] at hx
      simp only [List.get?_cons_zero, Option.some.injEq] at hy
      rw [← hx, ← hy]

/-- Claim C6 (amended): on the successful path — whether the first
simplification result is accepted (at least 6 closed coordinates) or the
half-tolerance retry's result is taken — the returned ring is the
accepted closed exterior with the repeated closing coordinate removed,
so its first and last points are distinct whenever the first and
second-to-last coordinates of the accepted exterior remain distinct
after integer rounding.  On the fallback paths (fewer than 4 input
points, or any geometric failure) the input ring is returned as is and
may repeat the start point, and rounding collisions may also equate the
endpoints. -/
theorem simplify_coords_open_ring (G : SimpGeom) (coords : List Point)
    (tol : ℚ) (ext s1 : List Point)
    (h4 : ¬coords.length < 4)
    (hmk : G.mkPolygonExt coords = some ext)
    (hs1 : G.simplifyExt ext tol = some s1) :
    (¬s1.length < 6 → ∀ x y, s1.head? = some x →
      s1.get? (s1.length - 2) = some y → roundPt x ≠ roundPt y →
      (simplify_coords G coords tol).head? ≠
        (simplify_coords G coords tol).getLast?) ∧
    (s1.length < 6 → ∀ s2, G.simplifyExt ext (half tol) = some s2 →
      ∀ x y, s2.head? = some x →
      s2.get? (s2.length - 2) = some y → roundPt x ≠ roundPt y →
      (simplify_coords G coords tol).head? ≠
        (simplify_coords G coords tol).getLast?) := by
  constructor
  · intro h6 x y hx hy hne
    have hout : simplify_coords G coords tol = s1.dropLast.map roundPt := by
      simp [simplify_coords, hmk, hs1, h4, h6]
    rw [hout]
    exact dropLast_map_ne_ends s1 x y hx hy hne
  · intro h6 s2 hs2 x y hx hy hne
    have hout : simplify_coords G coords tol = s2.dropLast.map roundPt := by
      simp [simplify_coords, hmk, hs1, hs2, h4, h6]
    rw [hout]
    exact dropLast_map_ne_ends s2 x y hx hy hne

/-- Engine whose simplification always returns the hexagon exterior. -/
def hexGeom : SimpGeom :=
  ⟨fun c => some (closeRing c), fun _ _ => some hexClosedRing⟩

/-- Both successful branches exercised: the hexagon engine accepts the
first result (7 closed coordinates), the square engine's first result
(5 closed coordinates) triggers the retry whose hexagon result is then
taken; in each case the returned ring's endpoints differ. -/
theorem simplify_coords_open_ring_witness :
    ((simplify_coords hexGeom hexRawRing 0).head? ≠
      (simplify_coords hexGeom hexRawRing 0).getLast?) ∧
    ((simplify_coords sqGeom hexRawRing 5).head? ≠
      (simplify_coords sqGeom hexRawRing 5).getLast?) :=
  ⟨(simplify_coords_open_ring hexGeom hexRawRing 0 (closeRing hexRawRing)
      hexClosedRing (by decide) rfl rfl).1 (by decide) (0, 0) (-20, 30)
      (by decide) (by decide) (by decide),
   (simplify_coords_open_ring sqGeom hexRawRing 5 (closeRing hexRawRing)
      sqClosedRing (by decide) rfl (by decide)).2 (by decide) hexClosedRing
      (by decide) (0, 0) (-20, 30) (by decide) (by decide) (by decide)⟩

/-- Engine that always raises (used where the engine is irrelevant). -/
def simpNoneGeom : SimpGeom := ⟨fun _ => none, fun _ _ => none⟩

/-- Claim C6 counterexample: the 3-point ring `(0,0), (1,0), (0,0)` —
below the 4-coordinate threshold, hence returned rounded but otherwise
unchanged — repeats its start point at the end, so not every ring
returned by the simplification stage has distinct first and last
points. -/
theorem simplify_coords_closed_counterexample :
    (simplify_coords simpNoneGeom [((0 : ℚ), (0 : ℚ)), (1, 0), (0, 0)] 5).head? =
      some (0, 0) ∧
    (simplify_coords simpNoneGeom [((0 : ℚ), (0 : ℚ)), (1, 0), (0, 0)] 5).getLast? =
      some (0, 0) := by
  refine ⟨by decide, by decide⟩

/-! ### Claim C8: second-pass simplification -/

theorem getLast?_eq_getD :
    ∀ (l : List Point) (d : Point), l ≠ [] →
      l.getLast? = some (l.getD (l.length - 1) d)
  | [], _, h => absurd rfl h
  | [a], d, _ => by simp
  | a :: b :: t, d, _ => by
    have ih := getLast?_eq_getD (b :: t) d (by simp)
    rw [List.getLast?_cons_cons, ih]
    simp only [List.length_cons, Nat.add_sub_cancel, List.getD_cons_succ]

/-- A simple ring does not repeat its start point at the end (its closing
edge is non-degenerate). -/
theorem isSimpleRing_getLast?_ne (p : Point) (t : List Point)
    (h : isSimpleRing (p :: t)) : (p :: t).getLast? ≠ some p := by
  obtain ⟨h3, hnd, -⟩ := h
  have hn : 0 < (p :: t).length := by simp
  have hne := hnd ((p :: t).length - 1) (by omega)
  have h1 : ((p :: t).length - 1) % (p :: t).length = (p :: t).length - 1 :=
    Nat.mod_eq_of_lt (by omega)
  have h2 : ((p :: t).length - 1 + 1) % (p :: t).length = 0 := by
    have heq : (p :: t).length - 1 + 1 = (p :: t).length := by omega
    rw [heq, Nat.mod_self]
  unfold vtx at hne
  rw [h1, h2] at hne
  intro hc
  rw [getLast?_eq_getD (p :: t) (0, 0) (by simp)] at hc
  exact hne (by rw [Option.some.inj hc]; rfl)

theorem closeRing_eq_append (p : Point) (t : List Point)
    (h : (p :: t).getLast? ≠ some p) : closeRing (p :: t) = (p :: t) ++ [p] := by
  simp only [closeRing]
  rw [if_neg h]

theorem mem_closeRing {q : Point} {c : List Point} (h : q ∈ closeRing c) :
    q ∈ c := by
  rcases c with _ | ⟨p, t⟩
  · simp [closeRing] at h
  · simp only [closeRing] at h
    split at h
    · exact h
    · rcases List.mem_append.mp h with h1 | h1
      · exact h1
      · simp only [List.mem_singleton] at h1
        simp [h1]

theorem map_roundPt_map_castPt (r : List IPoint) :
    (r.map castPt).map roundPt = r := by
  rw [List.map_map]
  have hcomp : (roundPt ∘ castPt) = id := funext roundPt_castPt
  rw [hcomp, List.map_id]

theorem map_castPt_map_roundPt (l : List Point)
    (h : ∀ p ∈ l, ∃ ip : IPoint, p = castPt ip) :
    (l.map roundPt).map castPt = l := by
  rw [List.map_map]
  conv_rhs => rw [← List.map_id l]
  apply List.map_congr_left
  intro a ha
  obtain ⟨ip, rfl⟩ := h a ha
  simp [roundPt_castPt]

/-- Claim C8: applying the simplification stage to an already-simplified
ring — an integer ring, as the stage outputs, assumed simple — returns a
ring with equal or fewer points and introduces no self-intersection.  The
engine hypotheses mirror shapely's documented behaviour of
`simplify(..., preserve_topology=True)`: the polygon exterior is the
closed input ring, and simplification returns a valid closed exterior
(at least 4 closed coordinates, no more than the input's), only removes
vertices (so on integer input the vertices stay integral and rounding is
the identity), and preserves simplicity of the underlying ring. -/
theorem simplify_coords_second_pass (G : SimpGeom) (tol : ℚ) (r : List IPoint)
    (hmk : ∀ c e, G.mkPolygonExt c = some e → e = closeRing c)
    (hlen : ∀ e t s, G.simplifyExt e t = some s →
      4 ≤ s.length ∧ s.length ≤ e.length)
    (hsub : ∀ e t s, G.simplifyExt e t = some s → ∀ p ∈ s, p ∈ e)
    (hpres : ∀ e t s, G.simplifyExt e t = some s →
      isSimpleRing e.dropLast → isSimpleRing s.dropLast)
    (hr : isSimpleRing (r.map castPt)) :
    (simplify_coords G (r.map castPt) tol).length ≤ r.length ∧
    isSimpleRing ((simplify_coords G (r.map castPt) tol).map castPt) := by
  have hfb : ((r.map castPt).map roundPt) = r := map_roundPt_map_castPt r
  have hlenrc : (r.map castPt).length = r.length := by simp
  by_cases h4 : (r.map castPt).length < 4
  · have hout : simplify_coords G (r.map castPt) tol = (r.map castPt).map roundPt := by
      unfold simplify_coords
      rw [if_pos h4]
    rw [hout, hfb]
    exact ⟨le_refl _, hr⟩
  · cases hm : G.mkPolygonExt (r.map castPt) with
    | none =>
      have hout : simplify_coords G (r.map castPt) tol = (r.map castPt).map roundPt := by
        simp only [simplify_coords, if_neg h4, hm]
      rw [hout, hfb]
      exact ⟨le_refl _, hr⟩
    | some ext =>
      have hext : ext = closeRing (r.map castPt) := hmk _ _ hm
      obtain ⟨p, t, hpt⟩ : ∃ p t, r.map castPt = p :: t := by
        cases hcc : r.map castPt with
        | nil =>
          obtain ⟨h3, -, -⟩ := hr
          rw [hcc] at h3
          simp at h3
        | cons p t => exact ⟨p, t, rfl⟩
      have hlast : (p :: t).getLast? ≠ some p :=
        isSimpleRing_getLast?_ne p t (hpt ▸ hr)
      have hclose : closeRing (r.map castPt) = (r.map castPt) ++ [p] := by
        rw [hpt]
        exact closeRing_eq_append p t hlast
      have hdrop : (closeRing (r.map castPt)).dropLast = r.map castPt := by
        rw [hclose, hpt]
        exact List.dropLast_concat
      have hextlen : ext.length = r.length + 1 := by
        rw [hext, hclose]
        simp
      have main : ∀ s t', G.simplifyExt ext t' = some s →
          (s.dropLast.map roundPt).length ≤ r.length ∧
          isSimpleRing ((s.dropLast.map roundPt).map castPt) := by
        intro s t' hs
        obtain ⟨hs4, hsle⟩ := hlen _ _ _ hs
        have hint : ∀ q ∈ s.dropLast, ∃ ip : IPoint, q = castPt ip := by
          intro q hq
          have hq1 : q ∈ s := List.Sublist.subset (List.dropLast_sublist s) hq
          have hq2 : q ∈ ext := hsub _ _ _ hs q hq1
          have hq3 : q ∈ r.map castPt := by
            rw [hext] at hq2
            exact mem_closeRing hq2
          obtain ⟨ip, _, hipq⟩ := List.mem_map.mp hq3
          exact ⟨ip, hipq.symm⟩
        constructor
        · simp only [List.length_map, List.length_dropLast]
          omega
        · have hsimple : isSimpleRing s.dropLast := by
            apply hpres _ _ _ hs
            rw [hext, hdrop]
            exact hr
          rw [map_castPt_map_roundPt _ hint]
          exact hsimple
      cases hs1 : G.simplifyExt ext tol with
      | none =>
        have hout : simplify_coords G (r.map castPt) tol = (r.map castPt).map roundPt := by
          simp only [simplify_coords, if_neg h4, hm, hs1]
        rw [hout, hfb]
        exact ⟨le_refl _, hr⟩
      | some s1 =>
        by_cases h6 : s1.length < 6
        · cases hs2 : G.simplifyExt ext (half tol) with
          | none =>
            have hout : simplify_coords G (r.map castPt) tol =
                (r.map castPt).map roundPt := by
              simp only [simplify_coords, if_neg h4, hm, hs1, if_pos h6, hs2]
            rw [hout, hfb]
            exact ⟨le_refl _, hr⟩
          | some s2 =>
            have hout : simplify_coords G (r.map castPt) tol =
                s2.dropLast.map roundPt := by
              simp only [simplify_coords, if_neg h4, hm, hs1, if_pos h6, hs2]
            rw [hout]
            exact main s2 _ hs2
        · have hout : simplify_coords G (r.map castPt) tol =
              s1.dropLast.map roundPt := by
            simp only [simplify_coords, if_neg h4, hm, hs1, if_neg h6]
          rw [hout]
          exact main s1 _ hs1

theorem simpIdGeom_sub (e : List Point) (t : ℚ) (s : List Point) :
    simpIdGeom.simplifyExt e t = some s → ∀ p ∈ s, p ∈ e := by
  intro h p hp
  unfold simpIdGeom at h
  simp only at h
  split at h
  · rw [← Option.some.inj h] at hp
    exact hp
  · cases h

theorem simpIdGeom_pres (e : List Point) (t : ℚ) (s : List Point) :
    simpIdGeom.simplifyExt e t = some s →
      isSimpleRing e.dropLast → isSimpleRing s.dropLast := by
  intro h hs
  unfold simpIdGeom at h
  simp only at h
  split at h
  · rw [← Option.some.inj h]
    exact hs
  · cases h

theorem simpIdGeom_mk_close (c e : List Point) :
    simpIdGeom.mkPolygonExt c = some e → e = closeRing c := fun h =>
  (Option.some.inj h).symm

theorem simplify_coords_second_pass_witness :
    isSimpleRing (([((0 : ℤ), (0 : ℤ)), (10, 0), (10, 10), (0, 10)] :
      List IPoint).map castPt) ∧
    ((simplify_coords simpIdGeom
        (([((0 : ℤ), (0 : ℤ)), (10, 0), (10, 10), (0, 10)] :
          List IPoint).map castPt) 0).length ≤ 4 ∧
     isSimpleRing ((simplify_coords simpIdGeom
        (([((0 : ℤ), (0 : ℤ)), (10, 0), (10, 10), (0, 10)] :
          List IPoint).map castPt) 0).map castPt)) :=
  ⟨by decide,
   simplify_coords_second_pass simpIdGeom 0
     [((0 : ℤ), (0 : ℤ)), (10, 0), (10, 10), (0, 10)]
     simpIdGeom_mk_close simpIdGeom_sim simpIdGeom_sub simpIdGeom_pres
     (by decide)⟩

/-! ### Dictionary lemmas for `detect_neighbors` -/

theorem dlookup_dictInsert_self {β : Type} (k : String) (v : β) :
    ∀ (m : List (String × β)), dlookup k (dictInsert k v m) = some v
  | [] => by simp [dictInsert, dlookup]
  | e :: rest => by
    by_cases h : e.1 = k
    · simp [dictInsert, dlookup, h]
    · simp only [dictInsert, if_neg h]
      simp only [dlookup, if_neg h]
      exact dlookup_dictInsert_self k v rest

theorem dlookup_dictInsert_ne {β : Type} (k k' : String) (v : β)
    (h : k' ≠ k) :
    ∀ (m : List (String × β)), dlookup k' (dictInsert k v m) = dlookup k' m
  | [] => by
    simp only [dictInsert, dlookup]
    rw [if_neg (fun hh => h hh.symm)]
  | e :: rest => by
    by_cases he : e.1 = k
    · simp only [dictInsert, if_pos he, dlookup]
      rw [if_neg (fun hh => h hh.symm), if_neg (by rw [he]; exact fun hh => h hh.symm)]
    · simp only [dictInsert, if_neg he, dlookup]
      by_cases he' : e.1 = k'
      · rw [if_pos he', if_pos he']
      · rw [if_neg he', if_neg he']
        exact dlookup_dictInsert_ne k k' v h rest

theorem mem_dkeys_dictInsert {β : Type} (k k' : String) (v : β) :
    ∀ (m : List (String × β)),
      (k' ∈ dkeys (dictInsert k v m) ↔ k' = k ∨ k' ∈ dkeys m)
  | [] => by simp [dictInsert, dkeys]
  | e :: rest => by
    by_cases h : e.1 = k
    · simp [dictInsert, dkeys, h]
    · simp only [dictInsert, if_neg h, dkeys, List.map_cons, List.mem_cons]
      have ih := mem_dkeys_dictInsert k k' v rest
      simp only [dkeys] at ih
      rw [ih]
      tauto

theorem dkeys_nodup_dictInsert {β : Type} (k : String) (v : β) :
    ∀ (m : List (String × β)),
      (dkeys m).Nodup → (dkeys (dictInsert k v m)).Nodup
  | [], _ => by simp [dictInsert, dkeys]
  | e :: rest, h => by
    simp only [dkeys, List.map_cons, List.nodup_cons] at h
    by_cases he : e.1 = k
    · simp only [dictInsert, if_pos he, dkeys, List.map_cons, List.nodup_cons]
      refine ⟨?_, h.2⟩
      rw [← he]
      exact h.1
    · simp only [dictInsert, if_neg he, dkeys, List.map_cons, List.nodup_cons]
      constructor
      · intro hc
        have := (mem_dkeys_dictInsert k e.1 v rest).mp hc
        rcases this with h1 | h1
        · exact he h1
        · exact h.1 h1
      · exact dkeys_nodup_dictInsert k v rest h.2

theorem dlookup_dictAppend_self (k : String) (v : String) :
    ∀ (m : List (String × List String)),
      dlookup k (dictAppend k v m) = (dlookup k m).map (fun l => l ++ [v])
  | [] => by simp [dictAppend, dlookup]
  | e :: rest => by
    by_cases h : e.1 = k
    · simp [dictAppend, dlookup, h]
    · simp only [dictAppend, if_neg h, dlookup, if_neg h]
      exact dlookup_dictAppend_self k v rest

theorem dlookup_dictAppend_ne (k k' v : String) (h : k' ≠ k) :
    ∀ (m : List (String × List String)),
      dlookup k' (dictAppend k v m) = dlookup k' m
  | [] => by simp [dictAppend]
  | e :: rest => by
    by_cases he : e.1 = k
    · simp only [dictAppend, if_pos he, dlookup]
      rw [if_neg (by rw [he]; exact fun hh => h hh.symm),
        if_neg (by rw [he]; exact fun hh => h hh.symm)]
    · simp only [dictAppend, if_neg he, dlookup]
      by_cases he' : e.1 = k'
      · rw [if_pos he', if_pos he']
      · rw [if_neg he', if_neg he']
        exact dlookup_dictAppend_ne k k' v h rest

theorem dkeys_dictAppend (k v : String) :
    ∀ (m : List (String × List String)), dkeys (dictAppend k v m) = dkeys m
  | [] => rfl
  | e :: rest => by
    by_cases h : e.1 = k
    · simp [dictAppend, dkeys, h]
    · simp only [dictAppend, if_neg h, dkeys, List.map_cons]
      rw [show (dictAppend k v rest).map (fun e => e.1) = dkeys (dictAppend k v rest) from rfl,
        dkeys_dictAppend k v rest]
      rfl

theorem dlookup_isSome_iff {β : Type} (k : String) :
    ∀ (m : List (String × β)), (dlookup k m).isSome ↔ k ∈ dkeys m
  | [] => by simp [dlookup, dkeys]
  | e :: rest => by
    by_cases h : e.1 = k
    · simp [dlookup, dkeys, h]
    · simp only [dlookup, if_neg h, dkeys, List.map_cons, List.mem_cons]
      have ih := dlookup_isSome_iff k rest
      simp only [dkeys] at ih
      rw [ih]
      constructor
      · intro hh
        exact Or.inr hh
      · intro hh
        rcases hh with h1 | h1
        · exact absurd h1.symm h
        · exact h1

theorem dkeys_addPair (i j : String) (m : List (String × List String)) :
    dkeys (addPair i j m) = dkeys m := by
  unfold addPair
  rw [dkeys_dictAppend, dkeys_dictAppend]

theorem dkeys_adjStep {α : Type} (G : AdjGeom α)
    (m : List (String × List String)) (pr : (String × α) × (String × α)) :
    dkeys (adjStep G m pr) = dkeys m := by
  unfold adjStep
  split
  · exact dkeys_addPair _ _ _
  · rfl

/-- `nbGet` across `addPair`, for distinct keys both present in the map. -/
theorem nbGet_addPair (i j a : String) (m : List (String × List String))
    (hij : i ≠ j) (hki : i ∈ dkeys m) (hkj : j ∈ dkeys m) :
    nbGet (addPair i j m) a =
      if a = i then nbGet m a ++ [j]
      else if a = j then nbGet m a ++ [i]
      else nbGet m a := by
  obtain ⟨li, hli⟩ := Option.isSome_iff_exists.mp ((dlookup_isSome_iff i m).mpr hki)
  obtain ⟨lj, hlj⟩ := Option.isSome_iff_exists.mp ((dlookup_isSome_iff j m).mpr hkj)
  by_cases hai : a = i
  · rw [if_pos hai, hai]
    unfold addPair nbGet
    rw [dlookup_dictAppend_ne j i i hij, dlookup_dictAppend_self i j, hli]
    rfl
  · by_cases haj : a = j
    · rw [if_neg hai, if_pos haj, haj]
      unfold addPair nbGet
      rw [dlookup_dictAppend_self j i, dlookup_dictAppend_ne i j j (Ne.symm hij), hlj]
      rfl
    · rw [if_neg hai, if_neg haj]
      unfold addPair nbGet
      rw [dlookup_dictAppend_ne j a i haj, dlookup_dictAppend_ne i a j hai]

/-- Membership across `addPair`, for distinct keys both present. -/
theorem mem_nbGet_addPair (i j x y : String) (m : List (String × List String))
    (hij : i ≠ j) (hki : i ∈ dkeys m) (hkj : j ∈ dkeys m) :
    (y ∈ nbGet (addPair i j m) x ↔
      y ∈ nbGet m x ∨ (x = i ∧ y = j) ∨ (x = j ∧ y = i)) := by
  rw [nbGet_addPair i j x m hij hki hkj]
  by_cases hxi : x = i
  · rw [if_pos hxi]
    simp only [List.mem_append, List.mem_singleton]
    constructor
    · rintro (h1 | h1)
      · exact Or.inl h1
      · exact Or.inr (Or.inl ⟨hxi, h1⟩)
    · rintro (h1 | ⟨-, h1⟩ | ⟨h1, -⟩)
      · exact Or.inl h1
      · exact Or.inr h1
      · exact absurd (hxi.symm.trans h1) hij
  · by_cases hxj : x = j
    · rw [if_neg hxi, if_pos hxj]
      simp only [List.mem_append, List.mem_singleton]
      constructor
      · rintro (h1 | h1)
        · exact Or.inl h1
        · exact Or.inr (Or.inr ⟨hxj, h1⟩)
      · rintro (h1 | ⟨h1, -⟩ | ⟨-, h1⟩)
        · exact Or.inl h1
        · exact absurd h1 hxi
        · exact Or.inr h1
    · rw [if_neg hxi, if_neg hxj]
      constructor
      · exact Or.inl
      · rintro (h1 | ⟨h1, -⟩ | ⟨h1, -⟩)
        · exact h1
        · exact absurd h1 hxi
        · exact absurd h1 hxj

/-- Symmetry invariant of the neighbor map. -/
def SymNb (m : List (String × List String)) : Prop :=
  ∀ a b, b ∈ nbGet m a ↔ a ∈ nbGet m b

/-- Irreflexivity invariant of the neighbor map. -/
def IrrNb (m : List (String × List String)) : Prop :=
  ∀ a, a ∉ nbGet m a

theorem symNb_adjStep {α : Type} (G : AdjGeom α)
    (m : List (String × List String)) (pr : (String × α) × (String × α))
    (hne : pr.1.1 ≠ pr.2.1) (hk1 : pr.1.1 ∈ dkeys m) (hk2 : pr.2.1 ∈ dkeys m)
    (h : SymNb m) : SymNb (adjStep G m pr) := by
  unfold adjStep
  split
  · intro a b
    rw [mem_nbGet_addPair pr.1.1 pr.2.1 a b m hne hk1 hk2,
        mem_nbGet_addPair pr.1.1 pr.2.1 b a m hne hk1 hk2]
    have hab := h a b
    tauto
  · exact h

theorem irrNb_adjStep {α : Type} (G : AdjGeom α)
    (m : List (String × List String)) (pr : (String × α) × (String × α))
    (hne : pr.1.1 ≠ pr.2.1) (hk1 : pr.1.1 ∈ dkeys m) (hk2 : pr.2.1 ∈ dkeys m)
    (h : IrrNb m) : IrrNb (adjStep G m pr) := by
  unfold adjStep
  split
  · intro a
    rw [mem_nbGet_addPair pr.1.1 pr.2.1 a a m hne hk1 hk2]
    rintro (h1 | ⟨h1, h2⟩ | ⟨h1, h2⟩)
    · exact h a h1
    · exact hne (h1.symm.trans h2)
    · exact hne (h2.symm.trans h1)
  · exact h

theorem symNb_fold {α : Type} (G : AdjGeom α) :
    ∀ (L : List ((String × α) × (String × α))) (m : List (String × List String)),
      (∀ pr ∈ L, pr.1.1 ≠ pr.2.1 ∧ pr.1.1 ∈ dkeys m ∧ pr.2.1 ∈ dkeys m) →
      SymNb m → SymNb (L.foldl (adjStep G) m)
  | [], _, _, h => h
  | pr :: L, m, hL, h => by
    have h1 := hL pr (List.mem_cons_self pr L)
    have h2 := symNb_adjStep G m pr h1.1 h1.2.1 h1.2.2 h
    refine symNb_fold G L (adjStep G m pr) ?_ h2
    intro q hq
    have h3 := hL q (List.mem_cons_of_mem pr hq)
    rw [dkeys_adjStep]
    exact h3

theorem irrNb_fold {α : Type} (G : AdjGeom α) :
    ∀ (L : List ((String × α) × (String × α))) (m : List (String × List String)),
      (∀ pr ∈ L, pr.1.1 ≠ pr.2.1 ∧ pr.1.1 ∈ dkeys m ∧ pr.2.1 ∈ dkeys m) →
      IrrNb m → IrrNb (L.foldl (adjStep G) m)
  | [], _, _, h => h
  | pr :: L, m, hL, h => by
    have h1 := hL pr (List.mem_cons_self pr L)
    have h2 := irrNb_adjStep G m pr h1.1 h1.2.1 h1.2.2 h
    refine irrNb_fold G L (adjStep G m pr) ?_ h2
    intro q hq
    have h3 := hL q (List.mem_cons_of_mem pr hq)
    rw [dkeys_adjStep]
    exact h3

theorem nbGet_foldInsert :
    ∀ (ps : List Prov) (m : List (String × List String)),
      (∀ k, nbGet m k = []) →
      ∀ k, nbGet (ps.foldl (fun m p => dictInsert p.id [] m) m) k = []
  | [], _, h => h
  | p :: ps, m, h => by
    apply nbGet_foldInsert ps
    intro k
    unfold nbGet
    by_cases hk : k = p.id
    · rw [hk, dlookup_dictInsert_self]
      rfl
    · rw [dlookup_dictInsert_ne p.id k [] hk]
      exact h k

theorem nbGet_initNeighbors (ps : List Prov) (k : String) :
    nbGet (initNeighbors ps) k = [] :=
  nbGet_foldInsert ps [] (fun _ => rfl) k

theorem mem_dkeys_foldInsert :
    ∀ (ps : List Prov) (m : List (String × List String)) (k : String),
      k ∈ dkeys m ∨ k ∈ ps.map (fun p => p.id) →
      k ∈ dkeys (ps.foldl (fun m p => dictInsert p.id [] m) m)
  | [], _, k, h => by
    rcases h with h | h
    · exact h
    · simp at h
  | p :: ps, m, k, h => by
    apply mem_dkeys_foldInsert ps
    rcases h with h | h
    · exact Or.inl ((mem_dkeys_dictInsert p.id k [] m).mpr (Or.inr h))
    · simp only [List.map_cons, List.mem_cons] at h
      rcases h with h | h
      · exact Or.inl ((mem_dkeys_dictInsert p.id k [] m).mpr (Or.inl h))
      · exact Or.inr h

theorem mem_dkeys_initNeighbors (ps : List Prov) (k : String)
    (h : k ∈ ps.map (fun p => p.id)) : k ∈ dkeys (initNeighbors ps) :=
  mem_dkeys_foldInsert ps [] k (Or.inr h)

theorem dkeys_polyFold_sub {α : Type} (G : AdjGeom α) :
    ∀ (ps : List Prov) (m : List (String × α)) (k : String),
      k ∈ dkeys (ps.foldl (polyStep G) m) →
      k ∈ dkeys m ∨ k ∈ ps.map (fun p => p.id)
  | [], _, _, h => Or.inl h
  | p :: ps, m, k, h => by
    have ih := dkeys_polyFold_sub G ps (polyStep G m p) k h
    rcases ih with h1 | h1
    · unfold polyStep at h1
      cases hmp : G.mkPoly p.coordinates with
      | none =>
        simp only [hmp] at h1
        exact Or.inl h1
      | some a =>
        simp only [hmp] at h1
        rcases (mem_dkeys_dictInsert p.id k a m).mp h1 with h2 | h2
        · right
          simp [h2]
        · exact Or.inl h2
    · right
      simp [h1]

theorem dkeys_polyFold_nodup {α : Type} (G : AdjGeom α) :
    ∀ (ps : List Prov) (m : List (String × α)),
      (dkeys m).Nodup → (dkeys (ps.foldl (polyStep G) m)).Nodup
  | [], _, h => h
  | p :: ps, m, h => by
    apply dkeys_polyFold_nodup G ps
    unfold polyStep
    cases G.mkPoly p.coordinates with
    | none => exact h
    | some a => exact dkeys_nodup_dictInsert p.id a m h

theorem pairsOf_mem {β : Type} :
    ∀ (l : List β) (pr : β × β), pr ∈ pairsOf l → pr.1 ∈ l ∧ pr.2 ∈ l
  | [], pr, h => by simp [pairsOf] at h
  | x :: rest, pr, h => by
    simp only [pairsOf] at h
    rcases List.mem_append.mp h with h1 | h1
    · obtain ⟨y, hy, hpr⟩ := List.mem_map.mp h1
      rw [← hpr]
      exact ⟨List.mem_cons_self x rest, List.mem_cons_of_mem x hy⟩
    · have h2 := pairsOf_mem rest pr h1
      exact ⟨List.mem_cons_of_mem x h2.1, List.mem_cons_of_mem x h2.2⟩

theorem pairsOf_key_ne {α : Type} :
    ∀ (l : List (String × α)), (dkeys l).Nodup →
      ∀ pr ∈ pairsOf l, pr.1.1 ≠ pr.2.1
  | [], _, pr, h => by simp [pairsOf] at h
  | x :: rest, hnd, pr, h => by
    simp only [dkeys, List.map_cons, List.nodup_cons] at hnd
    simp only [pairsOf] at h
    rcases List.mem_append.mp h with h1 | h1
    · obtain ⟨y, hy, hpr⟩ := List.mem_map.mp h1
      rw [← hpr]
      intro hc
      apply hnd.1
      rw [hc]
      exact List.mem_map.mpr ⟨y, hy, rfl⟩
    · exact pairsOf_key_ne rest hnd.2 pr h1

theorem pairsOf_mem_of_mem {β : Type} :
    ∀ (l : List β) (x y : β), x ∈ l → y ∈ l → x ≠ y →
      (x, y) ∈ pairsOf l ∨ (y, x) ∈ pairsOf l
  | [], x, _, hx, _, _ => by simp at hx
  | a :: rest, x, y, hx, hy, hne => by
    rcases List.mem_cons.mp hx with hx1 | hx1
    · rcases List.mem_cons.mp hy with hy1 | hy1
      · exact absurd (hx1.trans hy1.symm) hne
      · left
        simp only [pairsOf]
        apply List.mem_append.mpr
        left
        rw [hx1]
        exact List.mem_map.mpr ⟨y, hy1, rfl⟩
    · rcases List.mem_cons.mp hy with hy1 | hy1
      · right
        simp only [pairsOf]
        apply List.mem_append.mpr
        left
        rw [hy1]
        exact List.mem_map.mpr ⟨x, hx1, rfl⟩
      · rcases pairsOf_mem_of_mem rest x y hx1 hy1 hne with h | h
        · exact Or.inl (by simp only [pairsOf]; exact List.mem_append.mpr (Or.inr h))
        · exact Or.inr (by simp only [pairsOf]; exact List.mem_append.mpr (Or.inr h))

/-- Every pair the pairwise loop visits has distinct keys, both present in
the `neighbors` dict. -/
theorem detect_conditions {α : Type} (G : AdjGeom α) (ps : List Prov) :
    ∀ pr ∈ pairsOf (buildPolygons G ps),
      pr.1.1 ≠ pr.2.1 ∧ pr.1.1 ∈ dkeys (initNeighbors ps) ∧
      pr.2.1 ∈ dkeys (initNeighbors ps) := by
  intro pr hpr
  have hnodup : (dkeys (buildPolygons G ps)).Nodup :=
    dkeys_polyFold_nodup G ps [] (by simp [dkeys])
  have hne := pairsOf_key_ne _ hnodup pr hpr
  have hmem := pairsOf_mem _ pr hpr
  have hk1 : pr.1.1 ∈ dkeys (buildPolygons G ps) :=
    List.mem_map.mpr ⟨pr.1, hmem.1, rfl⟩
  have hk2 : pr.2.1 ∈ dkeys (buildPolygons G ps) :=
    List.mem_map.mpr ⟨pr.2, hmem.2, rfl⟩
  have hid1 : pr.1.1 ∈ ps.map (fun p => p.id) := by
    rcases dkeys_polyFold_sub G ps [] pr.1.1 hk1 with h | h
    · simp [dkeys] at h
    · exact h
  have hid2 : pr.2.1 ∈ ps.map (fun p => p.id) := by
    rcases dkeys_polyFold_sub G ps [] pr.2.1 hk2 with h | h
    · simp [dkeys] at h
    · exact h
  exact ⟨hne, mem_dkeys_initNeighbors ps _ hid1, mem_dkeys_initNeighbors ps _ hid2⟩

/-- Claim C4: the adjacency mapping returned by `detect_neighbors` is
symmetric and irreflexive: `B ∈ neighbors(A)` iff `A ∈ neighbors(B)`, and
no province's neighbor list contains its own identifier.  This holds for
any geometry engine and any province list: both directions of a pair are
appended in the same loop iteration, and the pairwise loop ranges over
distinct keys of the polygon dict. -/
theorem detect_neighbors_symm_irrefl {α : Type} (G : AdjGeom α) (ps : List Prov) :
    (∀ a b, b ∈ nbGet (detect_neighbors G ps) a ↔
      a ∈ nbGet (detect_neighbors G ps) b) ∧
    (∀ a, a ∉ nbGet (detect_neighbors G ps) a) := by
  constructor
  · exact symNb_fold G (pairsOf (buildPolygons G ps)) (initNeighbors ps)
      (detect_conditions G ps)
      (fun a b => by rw [nbGet_initNeighbors, nbGet_initNeighbors]; simp)
  · exact irrNb_fold G (pairsOf (buildPolygons G ps)) (initNeighbors ps)
      (detect_conditions G ps)
      (fun a => by rw [nbGet_initNeighbors]; exact List.not_mem_nil a)

/-! ### Claim C1: the adjacency registration condition -/

/-- Which memberships the pairwise loop creates: `b` enters `a`'s list
exactly through a visited pair carrying the two keys (in either order)
that registers. -/
theorem mem_nbGet_fold {α : Type} (G : AdjGeom α) :
    ∀ (L : List ((String × α) × (String × α)))
      (m : List (String × List String)) (a b : String), a ≠ b →
      (∀ pr ∈ L, pr.1.1 ≠ pr.2.1 ∧ pr.1.1 ∈ dkeys m ∧ pr.2.1 ∈ dkeys m) →
      (b ∈ nbGet (L.foldl (adjStep G) m) a ↔
        b ∈ nbGet m a ∨ ∃ pr ∈ L,
          ((pr.1.1 = a ∧ pr.2.1 = b) ∨ (pr.1.1 = b ∧ pr.2.1 = a)) ∧
          pairRegisters G pr.1.2 pr.2.2 = true)
  | [], m, a, b, _, _ => by simp
  | pr0 :: L, m, a, b, hab, hL => by
    have h0 := hL pr0 (List.mem_cons_self _ _)
    have hL' : ∀ pr ∈ L, pr.1.1 ≠ pr.2.1 ∧ pr.1.1 ∈ dkeys (adjStep G m pr0) ∧
        pr.2.1 ∈ dkeys (adjStep G m pr0) := by
      intro q hq
      have h3 := hL q (List.mem_cons_of_mem pr0 hq)
      rw [dkeys_adjStep]
      exact h3
    have ih := mem_nbGet_fold G L (adjStep G m pr0) a b hab hL'
    rw [List.foldl_cons, ih]
    by_cases hreg : pairRegisters G pr0.1.2 pr0.2.2 = true
    · have hstep : adjStep G m pr0 = addPair pr0.1.1 pr0.2.1 m := by
        unfold adjStep
        rw [if_pos hreg]
      rw [hstep, mem_nbGet_addPair pr0.1.1 pr0.2.1 a b m h0.1 h0.2.1 h0.2.2]
      constructor
      · rintro ((h1 | ⟨h1, h2⟩ | ⟨h1, h2⟩) | ⟨pr, hpr, hc⟩)
        · exact Or.inl h1
        · exact Or.inr ⟨pr0, List.mem_cons_self _ _,
            Or.inl ⟨h1.symm, h2.symm⟩, hreg⟩
        · exact Or.inr ⟨pr0, List.mem_cons_self _ _,
            Or.inr ⟨h2.symm, h1.symm⟩, hreg⟩
        · exact Or.inr ⟨pr, List.mem_cons_of_mem _ hpr, hc⟩
      · rintro (h1 | ⟨pr, hpr, hc⟩)
        · exact Or.inl (Or.inl h1)
        · rcases List.mem_cons.mp hpr with heq | hpr'
          · rw [heq] at hc
            rcases hc.1 with ⟨h1, h2⟩ | ⟨h1, h2⟩
            · exact Or.inl (Or.inr (Or.inl ⟨h1.symm, h2.symm⟩))
            · exact Or.inl (Or.inr (Or.inr ⟨h2.symm, h1.symm⟩))
          · exact Or.inr ⟨pr, hpr', hc⟩
    · have hstep : adjStep G m pr0 = m := by
        unfold adjStep
        rw [if_neg hreg]
      rw [hstep]
      constructor
      · rintro (h1 | ⟨pr, hpr, hc⟩)
        · exact Or.inl h1
        · exact Or.inr ⟨pr, List.mem_cons_of_mem _ hpr, hc⟩
      · rintro (h1 | ⟨pr, hpr, hc⟩)
        · exact Or.inl h1
        · rcases List.mem_cons.mp hpr with heq | hpr'
          · rw [heq] at hc
            exact absurd hc.2 hreg
          · exact Or.inr ⟨pr, hpr', hc⟩

/-- The pairwise `try` block registers a pair exactly when the measured
intersection length exceeds 1, given that no geometric call raises and
that a pair that neither touches nor intersects has an empty
intersection of length 0. -/
theorem pairRegisters_iff_len {α : Type} (G : AdjGeom α) (x y : α)
    (ht : G.pairTouches x y ≠ none) (hi : G.pairIntersects x y ≠ none)
    (hl : G.interLength x y ≠ none)
    (hdisj : G.pairTouches x y = some false →
      G.pairIntersects x y = some false → G.interLength x y = some 0) :
    (pairRegisters G x y = true ↔ ∃ l, G.interLength x y = some l ∧ 1 < l) := by
  cases hT : G.pairTouches x y with
  | none => exact absurd hT ht
  | some t =>
    cases hL : G.interLength x y with
    | none => exact absurd hL hl
    | some l =>
      cases t with
      | true =>
        simp only [pairRegisters, hT, hL, if_true, decide_eq_true_eq]
        constructor
        · intro h1
          exact ⟨l, rfl, h1⟩
        · rintro ⟨l', hl1, hl2⟩
          rw [Option.some.inj hl1]
          exact hl2
      | false =>
        cases hI : G.pairIntersects x y with
        | none => exact absurd hI hi
        | some i =>
          cases i with
          | true =>
            simp only [pairRegisters, hT, hI, hL, Bool.false_eq_true, if_false,
              if_true, decide_eq_true_eq]
            constructor
            · intro h1
              exact ⟨l, rfl, h1⟩
            · rintro ⟨l', hl1, hl2⟩
              rw [Option.some.inj hl1]
              exact hl2
          | false =>
            have h0 := hdisj hT hI
            rw [hL] at h0
            have hl0 : l = 0 := Option.some.inj h0
            simp only [pairRegisters, hT, hI, Bool.false_eq_true, if_false]
            constructor
            · intro h1
              cases h1
            · rintro ⟨l', hl1, hl2⟩
              rw [← Option.some.inj hl1, hl0] at hl2
              norm_num at hl2

theorem pairRegisters_symm {α : Type} (G : AdjGeom α) (x y : α)
    (hsT : ∀ u v, G.pairTouches u v = G.pairTouches v u)
    (hsI : ∀ u v, G.pairIntersects u v = G.pairIntersects v u)
    (hsL : ∀ u v, G.interLength u v = G.interLength v u) :
    pairRegisters G x y = pairRegisters G y x := by
  unfold pairRegisters
  rw [hsT x y, hsI x y, hsL x y]

theorem mem_dictInsert_self {β : Type} (k : String) (v : β) :
    ∀ (m : List (String × β)), (k, v) ∈ dictInsert k v m
  | [] => by simp [dictInsert]
  | e :: rest => by
    by_cases h : e.1 = k
    · simp [dictInsert, h]
    · simp only [dictInsert, if_neg h]
      exact List.mem_cons_of_mem e (mem_dictInsert_self k v rest)

theorem mem_dictInsert_of_ne {β : Type} (k k' : String) (v : β) (v' : β)
    (h : k ≠ k') :
    ∀ (m : List (String × β)), (k, v) ∈ m → (k, v) ∈ dictInsert k' v' m
  | [], hm => by simp at hm
  | e :: rest, hm => by
    by_cases he : e.1 = k'
    · simp only [dictInsert, if_pos he]
      rcases List.mem_cons.mp hm with h1 | h1
      · exfalso
        apply h
        have : (k, v).1 = e.1 := congrArg Prod.fst h1
        rw [← he]
        exact this
      · exact List.mem_cons_of_mem _ h1
    · simp only [dictInsert, if_neg he]
      rcases List.mem_cons.mp hm with h1 | h1
      · rw [h1]
        exact List.mem_cons_self e _
      · exact List.mem_cons_of_mem e (mem_dictInsert_of_ne k k' v v' h rest h1)

theorem entry_polyFold_preserved {α : Type} (G : AdjGeom α) :
    ∀ (ps : List Prov) (m : List (String × α)) (k : String) (v : α),
      (k, v) ∈ m → k ∉ ps.map (fun p => p.id) →
      (k, v) ∈ ps.foldl (polyStep G) m
  | [], _, _, _, hm, _ => hm
  | p :: ps, m, k, v, hm, hk => by
    have hk1 : k ≠ p.id := by
      intro hc
      exact hk (by simp [hc])
    have hk2 : k ∉ ps.map (fun p => p.id) := by
      intro hc
      exact hk (by simp [hc])
    refine entry_polyFold_preserved G ps (polyStep G m p) k v ?_ hk2
    unfold polyStep
    cases G.mkPoly p.coordinates with
    | none => exact hm
    | some a => exact mem_dictInsert_of_ne k p.id v a hk1 m hm

theorem buildPolygons_entry {α : Type} (G : AdjGeom α) :
    ∀ (ps : List Prov) (m : List (String × α)) (P : Prov) (pa : α),
      (ps.map (fun p => p.id)).Nodup → P ∈ ps →
      G.mkPoly P.coordinates = some pa →
      (P.id, pa) ∈ ps.foldl (polyStep G) m
  | [], _, P, _, _, hP, _ => by simp at hP
  | p :: ps, m, P, pa, hnd, hP, hmp => by
    simp only [List.map_cons, List.nodup_cons] at hnd
    rcases List.mem_cons.mp hP with h1 | h1
    · refine entry_polyFold_preserved G ps (polyStep G m p) P.id pa ?_ ?_
      · have hstep : polyStep G m p = dictInsert P.id pa m := by
          unfold polyStep
          rw [← h1, hmp]
        rw [hstep]
        exact mem_dictInsert_self P.id pa m
      · rw [h1]
        exact hnd.1
    · exact buildPolygons_entry G ps (polyStep G m p) P pa hnd.2 h1 hmp

theorem entry_unique {β : Type} :
    ∀ (m : List (String × β)) (k : String) (v w : β),
      (dkeys m).Nodup → (k, v) ∈ m → (k, w) ∈ m → v = w
  | [], _, _, _, _, hv, _ => by simp at hv
  | e :: rest, k, v, w, hnd, hv, hw => by
    simp only [dkeys, List.map_cons, List.nodup_cons] at hnd
    rcases List.mem_cons.mp hv with h1 | h1
    · rcases List.mem_cons.mp hw with h2 | h2
      · exact congrArg Prod.snd (h1.trans h2.symm)
      · exfalso
        apply hnd.1
        have hek : e.1 = k := (congrArg Prod.fst h1).symm
        rw [hek]
        exact List.mem_map.mpr ⟨(k, w), h2, rfl⟩
    · rcases List.mem_cons.mp hw with h2 | h2
      · exfalso
        apply hnd.1
        have hek : e.1 = k := (congrArg Prod.fst h2).symm
        rw [hek]
        exact List.mem_map.mpr ⟨(k, v), h1, rfl⟩
      · exact entry_unique rest k v w hnd.2 h1 h2

/-- Claim C1 (amended): for provinces with distinct identifiers whose
polygons are constructible, assuming the pairwise shapely calls raise no
exception, are symmetric, and assign length 0 to a disjoint pair, the
pair is registered as adjacent exactly when the length measured on
`poly1.intersection(poly2)` — the intersection of the two POLYGONS, not
of their boundaries — strictly exceeds 1.  (For non-overlapping
provinces this equals the boundary intersection; for overlapping ones it
is the perimeter of the overlap region.)  Pairs meeting at a single
point get length 0 and are not registered. -/
theorem detect_neighbors_registers_iff {α : Type} (G : AdjGeom α)
    (ps : List Prov) (A B : Prov) (pa pb : α)
    (hnd : (ps.map (fun p => p.id)).Nodup)
    (hA : A ∈ ps) (hB : B ∈ ps) (hid : A.id ≠ B.id)
    (hpa : G.mkPoly A.coordinates = some pa)
    (hpb : G.mkPoly B.coordinates = some pb)
    (hsT : ∀ x y, G.pairTouches x y = G.pairTouches y x)
    (hsI : ∀ x y, G.pairIntersects x y = G.pairIntersects y x)
    (hsL : ∀ x y, G.interLength x y = G.interLength y x)
    (ht : G.pairTouches pa pb ≠ none)
    (hi : G.pairIntersects pa pb ≠ none)
    (hl : G.interLength pa pb ≠ none)
    (hdisj : G.pairTouches pa pb = some false →
      G.pairIntersects pa pb = some false → G.interLength pa pb = some 0) :
    (B.id ∈ nbGet (detect_neighbors G ps) A.id ↔
      ∃ l, G.interLength pa pb = some l ∧ 1 < l) := by
  have hnodup : (dkeys (buildPolygons G ps)).Nodup :=
    dkeys_polyFold_nodup G ps [] (by simp [dkeys])
  have entryA : (A.id, pa) ∈ buildPolygons G ps :=
    buildPolygons_entry G ps [] A pa hnd hA hpa
  have entryB : (B.id, pb) ∈ buildPolygons G ps :=
    buildPolygons_entry G ps [] B pb hnd hB hpb
  have regiff := pairRegisters_iff_len G pa pb ht hi hl hdisj
  have hmem := mem_nbGet_fold G (pairsOf (buildPolygons G ps))
    (initNeighbors ps) A.id B.id hid (detect_conditions G ps)
  unfold detect_neighbors
  rw [hmem, nbGet_initNeighbors]
  simp only [List.not_mem_nil, false_or]
  constructor
  · rintro ⟨pr, hpr, hmatch, hreg⟩
    have hprm := pairsOf_mem _ pr hpr
    rcases hmatch with ⟨h1, h2⟩ | ⟨h1, h2⟩
    · have hm1 : (A.id, pr.1.2) ∈ buildPolygons G ps := by
        rw [← h1]
        exact hprm.1
      have hm2 : (B.id, pr.2.2) ∈ buildPolygons G ps := by
        rw [← h2]
        exact hprm.2
      have hva : pr.1.2 = pa := entry_unique _ _ _ _ hnodup hm1 entryA
      have hvb : pr.2.2 = pb := entry_unique _ _ _ _ hnodup hm2 entryB
      rw [hva, hvb] at hreg
      exact regiff.mp hreg
    · have hm1 : (B.id, pr.1.2) ∈ buildPolygons G ps := by
        rw [← h1]
        exact hprm.1
      have hm2 : (A.id, pr.2.2) ∈ buildPolygons G ps := by
        rw [← h2]
        exact hprm.2
      have hvb : pr.1.2 = pb := entry_unique _ _ _ _ hnodup hm1 entryB
      have hva : pr.2.2 = pa := entry_unique _ _ _ _ hnodup hm2 entryA
      rw [hvb, hva, pairRegisters_symm G pb pa hsT hsI hsL] at hreg
      exact regiff.mp hreg
  · intro hlen
    have hreg : pairRegisters G pa pb = true := regiff.mpr hlen
    have hne : ((A.id, pa) : String × α) ≠ (B.id, pb) := by
      intro hc
      exact hid (congrArg Prod.fst hc)
    rcases pairsOf_mem_of_mem (buildPolygons G ps) (A.id, pa) (B.id, pb)
        entryA entryB hne with h | h
    · exact ⟨((A.id, pa), (B.id, pb)), h, Or.inl ⟨rfl, rfl⟩, hreg⟩
    · refine ⟨((B.id, pb), (A.id, pa)), h, Or.inr ⟨rfl, rfl⟩, ?_⟩
      rw [pairRegisters_symm G pb pa hsT hsI hsL]
      exact hreg

/-- The spec's example squares sharing a full edge. -/
def edgeProvA : Prov := ⟨"A", [(0, 0), (10, 0), (10, 10), (0, 10)]⟩

def edgeProvB : Prov := ⟨"B", [(10, 0), (20, 0), (20, 10), (10, 10)]⟩

/-- Engine encoding shapely's values at the edge-sharing squares: the
polygons touch (and hence intersect), and `poly1.intersection(poly2)` is
the shared edge from (10,0) to (10,10), of length 10. -/
def edgeGeom : AdjGeom Unit :=
  ⟨fun _ => some (), fun _ _ => some true, fun _ _ => some true,
   fun _ _ => some 10⟩

theorem detect_neighbors_registers_iff_witness :
    (edgeProvB.id ∈
        nbGet (detect_neighbors edgeGeom [edgeProvA, edgeProvB]) edgeProvA.id ↔
      ∃ l, edgeGeom.interLength () () = some l ∧ 1 < l) ∧
    edgeProvB.id ∈
      nbGet (detect_neighbors edgeGeom [edgeProvA, edgeProvB]) edgeProvA.id := by
  have h := detect_neighbors_registers_iff edgeGeom [edgeProvA, edgeProvB]
    edgeProvA edgeProvB () () (by decide) (by decide) (by decide) (by decide)
    rfl rfl (fun x y => rfl) (fun x y => rfl) (fun x y => rfl)
    (by decide) (by decide) (by decide) (fun h1 _ => absurd h1 (by decide))
  exact ⟨h, h.mpr ⟨10, rfl, by decide⟩⟩

/-- The two overlapping squares of the boundary counterexample. -/
def sqARing : List IPoint := [(0, 0), (10, 0), (10, 10), (0, 10)]

def sqBRing : List IPoint := [(5, 5), (15, 5), (15, 15), (5, 15)]

def overProvA : Prov := ⟨"A", sqARing⟩

def overProvB : Prov := ⟨"B", sqBRing⟩

/-- Engine encoding shapely's documented values for the two OVERLAPPING
squares: their interiors overlap, so `touches` is false and `intersects`
is true; `poly1.intersection(poly2)` is the overlap square with corners
(5,5) and (10,10), whose `.length` is its perimeter, 20. -/
def overlapGeom : AdjGeom Bool :=
  ⟨fun c =>
    if c = sqARing then some false
    else if c = sqBRing then some true
    else none,
   fun _ _ => some false, fun _ _ => some true, fun _ _ => some 20⟩

/-- Claim C1 counterexample: the two overlapping squares ARE registered as
adjacent (the polygon intersection has length — perimeter — 20 > 1), yet
their BOUNDARIES cross at exactly two points: no edge of one overlaps an
edge of the other along a common line, as `boundariesShareNoSegment`
certifies, so the intersection of the two boundaries is a finite point
set of total length 0, which does not exceed 1.  The source measures
`poly1.intersection(poly2)` — the intersection of the polygons, not of
their boundaries — so the claim's boundary-length criterion does not
match the code. -/
theorem detect_neighbors_boundary_counterexample :
    ("B" ∈ nbGet (detect_neighbors overlapGeom [overProvA, overProvB]) "A") ∧
    boundariesShareNoSegment sqARing sqBRing := by
  refine ⟨by decide, by decide⟩

end StratBoard
